import Mathlib

/-!
Verification of the catalog reconciliation pipeline of the product-list
repository. The definitions below are shallow embeddings of the JavaScript
functions in scripts/sync_products.mjs (first revision, line references in
the claims), tools/generate_product_pages.mjs, and the sync_products.mjs
revision stored as src/unnamed/part_002 (called V2 below). Strings are
modelled by Lean strings over their character lists; JS objects built by
mapRow are modelled by association lists; JS Map is modelled by an
insertion-ordered association list whose set operation replaces in place.
-/

namespace ProductList

/-- Whitespace as trimmed by the JS String.prototype.trim used via norm. -/
def jsWhitespace (c : Char) : Bool :=
  c = ' ' || c = '\t' || c = '\n' || c = '\r' || c = '\x0b' || c = '\x0c'

/-- norm(s): String(s).trim() on an already-string value. -/
def norm (s : String) : String :=
  String.mk (((s.data.dropWhile jsWhitespace).reverse.dropWhile jsWhitespace).reverse)

/-- upper(s): norm(s).toUpperCase() (ASCII). -/
def upper (s : String) : String :=
  String.mk ((norm s).data.map Char.toUpper)

/-- String.prototype.toLowerCase (ASCII), used inside isActiveStatus. -/
def lowerStr (s : String) : String :=
  String.mk (s.data.map Char.toLower)

/-- normalizeMarket(v) = upper(v). -/
def normalizeMarket (v : String) : String := upper v

/-- normalizeAsin(v) = upper(v). -/
def normalizeAsin (v : String) : String := upper v

/-- isValidHttpUrl(u): the regex test for a prefix http:// or https://,
case-insensitive, applied to norm(u). -/
def isValidHttpUrl (u : String) : Bool :=
  let s := (lowerStr (norm u)).data
  "http://".data.isPrefixOf s || "https://".data.isPrefixOf s

/-- normalizeUrl(v): keep the trimmed string only when it carries an
http(s) scheme prefix, else the empty string. -/
def normalizeUrl (v : String) : String :=
  let s := norm v
  if s = "" then ""
  else if isValidHttpUrl s then s else ""

/-- isActiveStatus(v): empty status defaults to published, else member of
the published-token list after lower-casing. The argument is an optional
string because the status cell may be absent from the row object. -/
def isActiveStatus (v : Option String) : Bool :=
  let s := lowerStr (norm (v.getD ""))
  if s = "" then true
  else ["1", "true", "yes", "on", "active", "enabled", "publish", "published", "online"].contains s

/-- isAllDigits(s): nonempty after trimming and all characters 0-9. -/
def isAllDigits (s : String) : Bool :=
  let x := norm s
  x != "" && x.data.all Char.isDigit

/-- isNonAmazonByAsin(asin) = isAllDigits(asin). -/
def isNonAmazonByAsin (asin : String) : Bool := isAllDigits asin

/-- One step of the parseCSV character state machine; parameters mirror the
mutable variables i (the remaining characters), inQuotes, field, row, rows. -/
def parseCSVGo : List Char → Bool → String → List String → List (List String) →
    List (List String)
  | [], _, field, row, rows =>
    if field != "" || row != [] then rows ++ [row ++ [field]] else rows
  | c :: rest, inQuotes, field, row, rows =>
    if inQuotes then
      if c = '"' then
        match rest with
        | [] => if field != "" || row != [] then rows ++ [row ++ [field]] else rows
        | c2 :: rest2 =>
          if c2 = '"' then parseCSVGo rest2 true (field.push '"') row rows
          else parseCSVGo (c2 :: rest2) false field row rows
      else parseCSVGo rest true (field.push c) row rows
    else if c = '"' then parseCSVGo rest true field row rows
    else if c = ',' then parseCSVGo rest false "" (row ++ [field]) rows
    else if c = '\r' then parseCSVGo rest false field row rows
    else if c = '\n' then parseCSVGo rest false "" [] (rows ++ [row ++ [field]])
    else parseCSVGo rest inQuotes (field.push c) row rows

/-- parseCSV(text): minimal CSV parser supporting quoted fields. -/
def parseCSV (text : String) : List (List String) :=
  parseCSVGo text.data false "" [] []

/-- A product record as built by the first revision of sync_products.mjs.
The optional hidden_reason models the _hidden_reason field, absent (none)
on active records. -/
structure Item where
  market : String
  asin : String
  title : String
  link : String
  image_url : String
  hidden_reason : Option String := none
  deriving Repr, DecidableEq

/-- keyOf(p) = upper(market) + bar + upper(asin). -/
def keyOf (p : Item) : String := upper p.market ++ "|" ++ upper p.asin

/-- pickBetter(existing, incoming) of scripts/sync_products.mjs: prefer a
link, then an image, then the longer title, else keep the existing. -/
def pickBetter : Option Item → Item → Item
  | none, incoming => incoming
  | some existing, incoming =>
    let exLink := isValidHttpUrl existing.link
    let inLink := isValidHttpUrl incoming.link
    let exImg := norm existing.image_url != ""
    let inImg := norm incoming.image_url != ""
    let exTitleLen := (norm existing.title).length
    let inTitleLen := (norm incoming.title).length
    if !exLink && inLink then incoming
    else if exLink == inLink && (!exImg && inImg) then incoming
    else if exLink == inLink && exImg == inImg && decide (inTitleLen > exTitleLen) then incoming
    else existing

/-- Insertion-ordered association list modelling a JS Map (and the row
object built by mapRow): set replaces in place, otherwise appends. -/
def aset {α : Type} (m : List (String × α)) (k : String) (v : α) : List (String × α) :=
  match m with
  | [] => [(k, v)]
  | (k2, v2) :: rest => if k2 = k then (k, v) :: rest else (k2, v2) :: aset rest k v

/-- Map.has, object key test. -/
def ahas {α : Type} : List (String × α) → String → Bool
  | [], _ => false
  | e :: rest, k => e.1 == k || ahas rest k

/-- Map.get / object property access; none models undefined. -/
def aget {α : Type} : List (String × α) → String → Option α
  | [], _ => none
  | e :: rest, k => if e.1 = k then some e.2 else aget rest k

/-- Map.values as an insertion-ordered list. -/
def avalues {α : Type} (m : List (String × α)) : List α :=
  m.map Prod.snd

/-- mapRow(headers, cells): the row object, each header mapped to the
trimmed cell at its index (missing cells default to the empty string). -/
def mapRow (headers : List String) (cells : List String) : List (String × String) :=
  headers.enum.foldl (fun o e => aset o e.2 (norm (cells.getD e.1 ""))) []

/-- The JS expression o.k1 or-else o.k2 or-else ... : first truthy
(defined and nonempty) property value, else the empty string. -/
def jsOrFields (o : List (String × String)) (ks : List String) : String :=
  match ks.findSome? (fun k =>
      match aget o k with
      | some s => if s != "" then some s else none
      | none => none) with
  | some s => s
  | none => ""

/-- The JS expression o.k1 ?? o.k2 ?? ... : first defined property value. -/
def jsCoalesceFields (o : List (String × String)) (ks : List String) : Option String :=
  ks.findSome? (fun k => aget o k)

/-- market extraction of one data row (normalizeMarket of the market /
Market / MARKET columns). -/
def rowMarket (headers : List String) (r : List String) : String :=
  normalizeMarket (jsOrFields (mapRow headers r) ["market", "Market", "MARKET"])

/-- asin extraction of one data row. -/
def rowAsin (headers : List String) (r : List String) : String :=
  normalizeAsin (jsOrFields (mapRow headers r) ["asin", "ASIN"])

/-- title extraction of one data row. -/
def rowTitle (headers : List String) (r : List String) : String :=
  norm (jsOrFields (mapRow headers r) ["title", "Title"])

/-- link extraction of one data row. -/
def rowLink (headers : List String) (r : List String) : String :=
  normalizeUrl (jsOrFields (mapRow headers r) ["link", "Link"])

/-- image_url extraction of one data row. -/
def rowImage (headers : List String) (r : List String) : String :=
  norm (jsOrFields (mapRow headers r) ["image_url", "image", "Image", "imageUrl"])

/-- status extraction of one data row (coalescing, so a present empty
status shadows the later aliases). -/
def rowStatus (headers : List String) (r : List String) : Option String :=
  jsCoalesceFields (mapRow headers r) ["status", "Status", "STATUS"]

/-- The key a data row would occupy, computed through the same Item
construction as the reconciler. -/
def rowKeyOf (headers : List String) (r : List String) : String :=
  upper (rowMarket headers r) ++ "|" ++ upper (rowAsin headers r)

/-- Mutable state of the row loop of main: the active dedup Map, the
working archive Map and the duplicate counter. -/
structure RunState where
  activeMap : List (String × Item)
  archiveMap : List (String × Item)
  dupActive : Nat
  deriving Repr, DecidableEq

/-- One iteration of the row loop of main in scripts/sync_products.mjs:
skip on missing market/asin, all-digits asin goes to archive (insert
only), inactive status goes to archive (insert only), otherwise dedup
into the active Map via pickBetter. -/
def processRow (headers : List String) (st : RunState) (r : List String) : RunState :=
  let market := rowMarket headers r
  let asin := rowAsin headers r
  if market = "" ∨ asin = "" then st
  else
    let title := rowTitle headers r
    let link := rowLink headers r
    let image_url := rowImage headers r
    if isNonAmazonByAsin asin then
      let item : Item := ⟨market, asin, title, link, image_url, some "non_amazon_numeric_asin"⟩
      let k := keyOf item
      if ahas st.archiveMap k then st
      else { st with archiveMap := aset st.archiveMap k item }
    else if !(isActiveStatus (rowStatus headers r)) then
      let item : Item := ⟨market, asin, title, link, image_url, some "inactive_status"⟩
      let k := keyOf item
      if ahas st.archiveMap k then st
      else { st with archiveMap := aset st.archiveMap k item }
    else
      let item : Item := ⟨market, asin, title, link, image_url, none⟩
      let k := keyOf item
      if ahas st.activeMap k then
        { activeMap := aset st.activeMap k (pickBetter (aget st.activeMap k) item),
          archiveMap := st.archiveMap,
          dupActive := st.dupActive + 1 }
      else { st with activeMap := aset st.activeMap k item }

/-- Insertion step of the stable insertion sort modelling the JS stable
Array.prototype.sort. -/
def insertSorted {α : Type} (le : α → α → Bool) (a : α) : List α → List α
  | [] => [a]
  | b :: bs => if le a b then a :: b :: bs else b :: insertSorted le a bs

/-- Stable sort by a boolean order. -/
def sortByLe {α : Type} (le : α → α → Bool) (l : List α) : List α :=
  l.foldr (insertSorted le) []

/-- Order used for nextProducts / nextArchive: market, then asin. -/
def itemLe (a b : Item) : Bool :=
  decide (a.market < b.market) || (a.market == b.market && decide (a.asin ≤ b.asin))

/-- Build a Map keyed by keyOf from a record list (prevMap / archiveMap
initialisation in main). -/
def buildMap (l : List Item) : List (String × Item) :=
  l.foldl (fun m p => aset m (keyOf p) p) []

/-- Header list of a parsed CSV text (first row, trimmed). -/
def csvHeaders (csvText : String) : List String :=
  ((parseCSV csvText).headD []).map norm

/-- Data rows of a parsed CSV text: every row after the header that has a
cell that is nonempty after trimming. -/
def csvDataRows (csvText : String) : List (List String) :=
  ((parseCSV csvText).tail).filter (fun r => r.any (fun c => norm c != ""))

/-- State after the row loop, starting from an empty active Map and the
archive Map loaded from the prior archive list. -/
def rowsState (csvText : String) (prevArchive : List Item) : RunState :=
  (csvDataRows csvText).foldl (processRow (csvHeaders csvText)) ⟨[], buildMap prevArchive, 0⟩

/-- Shared shape of the removed-items loop of main, parametrized by the
transform applied to a copied prior record (identity in the first
revision, the tagging of V2): every prior active key missing from the
next active keys is counted, and copied into the archive Map when the key
is not already present there. -/
def removedStep {α : Type} (f : α → α) (nextKeys : List String)
    (acc : List (String × α) × Nat) (e : String × α) : List (String × α) × Nat :=
  if nextKeys.contains e.1 then acc
  else ((if ahas acc.1 e.1 then acc.1 else aset acc.1 e.1 (f e.2)), acc.2 + 1)

def removedLoopGen {α : Type} (f : α → α) (prevMap : List (String × α))
    (nextKeys : List String) (archiveMap : List (String × α)) :
    List (String × α) × Nat :=
  prevMap.foldl (removedStep f nextKeys) (archiveMap, 0)

/-- The removed-items loop of main in scripts/sync_products.mjs: the prior
record is copied forward unchanged. -/
def removedLoop (prevMap : List (String × Item)) (nextKeys : List String)
    (archiveMap : List (String × Item)) : List (String × Item) × Nat :=
  removedLoopGen (fun v => v) prevMap nextKeys archiveMap

/-- nextProducts of main: the sorted values of the active dedup Map. -/
def nextProductsDef (csvText : String) (prevArchive : List Item) : List Item :=
  sortByLe itemLe (avalues (rowsState csvText prevArchive).activeMap)

/-- The Set of next active keys. -/
def nextKeysDef (csvText : String) (prevArchive : List Item) : List String :=
  (nextProductsDef csvText prevArchive).map keyOf

/-- Archive Map after the removed-items loop. -/
def finalArchiveMap (csvText : String) (prevProducts prevArchive : List Item) :
    List (String × Item) :=
  (removedLoop (buildMap prevProducts) (nextKeysDef csvText prevArchive)
    (rowsState csvText prevArchive).archiveMap).1

/-- removedCount of main. -/
def removedCountDef (csvText : String) (prevProducts prevArchive : List Item) : Nat :=
  (removedLoop (buildMap prevProducts) (nextKeysDef csvText prevArchive)
    (rowsState csvText prevArchive).archiveMap).2

/-- nextArchive of main: the sorted values of the final archive Map. -/
def nextArchiveDef (csvText : String) (prevProducts prevArchive : List Item) : List Item :=
  sortByLe itemLe (avalues (finalArchiveMap csvText prevProducts prevArchive))

/-- Outputs of one reconciliation run. -/
structure SyncResult where
  nextProducts : List Item
  nextArchive : List Item
  dupActive : Nat
  removedCount : Nat
  deriving Repr, DecidableEq

/-- The content phase of main in scripts/sync_products.mjs: parse the
fetched CSV, throw when it yields no rows at all, otherwise rebuild the
next active list and the next archive list from the rows and the prior
persisted state. The two JSON documents are persisted exactly when the
result is ok, after the whole computation. -/
def runSync (csvText : String) (prevProducts prevArchive : List Item) :
    Except String SyncResult :=
  if parseCSV csvText = [] then .error "CSV is empty"
  else
    .ok ⟨nextProductsDef csvText prevArchive,
         nextArchiveDef csvText prevProducts prevArchive,
         (rowsState csvText prevArchive).dupActive,
         removedCountDef csvText prevProducts prevArchive⟩

/-- Shape of a parsed prior JSON document, as far as Array.isArray can
tell: an array of records, or anything else. -/
inductive JsonVal where
  | arr (items : List Item)
  | nonArray
  deriving Repr, DecidableEq

/-- Outcome of reading a persisted JSON file: absent file, a read that
throws, a parse that throws, or a parsed value. -/
inductive ReadOutcome where
  | missing
  | readError
  | parseError
  | parsed (j : JsonVal)
  deriving Repr, DecidableEq

/-- safeReadJson(file, fallback): the try/catch collapses the missing,
unreadable and unparsable cases to the fallback. -/
def safeReadJson (r : ReadOutcome) (fallback : JsonVal) : JsonVal :=
  match r with
  | .missing => fallback
  | .readError => fallback
  | .parseError => fallback
  | .parsed j => j

/-- Array.isArray(x) ? x : [] applied to a parsed document. -/
def asItemList : JsonVal → List Item
  | .arr xs => xs
  | .nonArray => []

/-- Prior list as loaded by main: safeReadJson with fallback [] then the
Array.isArray guard. -/
def loadPrevList (r : ReadOutcome) : List Item :=
  asItemList (safeReadJson r (.arr []))

/-- Whether a read outcome delivered an array (the only case in which the
prior state is not silently treated as empty). -/
def isArrayRead : ReadOutcome → Bool
  | .parsed (.arr _) => true
  | _ => false

/-- main including the loading of the two prior JSON documents. -/
def runSyncFull (csvText : String) (productsRead archiveRead : ReadOutcome) :
    Except String SyncResult :=
  runSync csvText (loadPrevList productsRead) (loadPrevList archiveRead)

/-! Embedding of tools/generate_product_pages.mjs. -/

/-- A record as consumed by the page generator; asinKeyAnn models the
__asinKey property that annotateAsinKeys writes onto the record. -/
structure PageItem where
  market : String
  asin : String
  link : String
  image_url : String
  asinKeyAnn : Option String := none
  deriving Repr, DecidableEq

/-- Key of a page record, as used by the duplicate counter. -/
def pageKeyOf (p : PageItem) : String := upper p.market ++ "|" ++ upper p.asin

/-- isAllDigitsAsin of the page tool: upper(asin) nonempty and all 0-9. -/
def isAllDigitsAsin (asin : String) : Bool :=
  let a := upper asin
  a != "" && a.data.all Char.isDigit

/-- isAllowedAsin: nonempty and not all digits. -/
def isAllowedAsin (asin : String) : Bool :=
  if asin == "" then false
  else if isAllDigitsAsin asin then false
  else true

/-- The loop of annotateAsinKeys, threading the duplicate counter Map;
writing the __asinKey property is modelled by returning updated records. -/
def annotateGo : List PageItem → List (String × Nat) → List PageItem
  | [], _ => []
  | p :: ps, counter =>
    let m := upper p.market
    let a := upper p.asin
    let key := m ++ "|" ++ a
    let seen := (aget counter key).getD 0
    let asinKey := if seen = 0 then a else a ++ "_" ++ toString seen
    { p with asinKeyAnn := some asinKey } :: annotateGo ps (aset counter key (seen + 1))

/-- annotateAsinKeys(list): assigns asin, asin_1, asin_2, ... per key in
list order by mutating the __asinKey property of each record. -/
def annotateAsinKeys (list : List PageItem) : List PageItem :=
  annotateGo list []

/-- The map step of main in the page tool, normalizing the four fields. -/
def toPageItem (p : Item) : PageItem :=
  { market := upper p.market, asin := upper p.asin,
    link := norm p.link, image_url := norm p.image_url, asinKeyAnn := none }

/-- Sort order of the page tool: upper market then upper asin. -/
def pageLe (a b : PageItem) : Bool :=
  decide (upper a.market < upper b.market)
    || (upper a.market == upper b.market && decide (upper a.asin ≤ upper b.asin))

/-- main of tools/generate_product_pages.mjs up to key assignment: union
the active and archive lists, drop records without market/asin, normalize,
drop all-digits asins, sort stably, then assign the keys. -/
def pagesMain (active archive : List Item) : List PageItem :=
  annotateAsinKeys (sortByLe pageLe
    ((((active ++ archive).filter (fun p => p.market != "" && p.asin != "")).map toPageItem).filter
      (fun p => isAllowedAsin p.asin)))

/-! Embedding of the sync_products.mjs revision in src/unnamed/part_002
(V2): records carry keyword/store/remark/status, a CSV row index _idx,
and timestamps _ts/_updated; archive upserts overwrite; removed records
are tagged. -/

/-- A V2 product record. -/
structure Item2 where
  market : String
  asin : String
  title : String
  keyword : String
  store : String
  remark : String
  status : String
  link : String
  image_url : String
  idx : Nat
  ts : Nat
  updated : Nat
  hidden_reason : Option String := none
  deriving Repr, DecidableEq

/-- keyOf for V2 records. -/
def keyOf2 (p : Item2) : String := upper p.market ++ "|" ++ upper p.asin

/-- V2 pickBetter: link, image, then title/keyword/store/remark lengths,
then the smaller CSV row index. -/
def pickBetter2 : Option Item2 → Item2 → Item2
  | none, incoming => incoming
  | some ex, inc =>
    let exLink := isValidHttpUrl ex.link
    let inLink := isValidHttpUrl inc.link
    let exImg := norm ex.image_url != ""
    let inImg := norm inc.image_url != ""
    let exTitleLen := (norm ex.title).length
    let inTitleLen := (norm inc.title).length
    let exKeyLen := (norm ex.keyword).length
    let inKeyLen := (norm inc.keyword).length
    let exStoreLen := (norm ex.store).length
    let inStoreLen := (norm inc.store).length
    let exRemarkLen := (norm ex.remark).length
    let inRemarkLen := (norm inc.remark).length
    if !exLink && inLink then inc
    else if exLink == inLink && (!exImg && inImg) then inc
    else if exLink == inLink && exImg == inImg && decide (inTitleLen > exTitleLen) then inc
    else if exLink == inLink && exImg == inImg && inTitleLen == exTitleLen
        && decide (inKeyLen > exKeyLen) then inc
    else if exLink == inLink && exImg == inImg && inTitleLen == exTitleLen
        && inKeyLen == exKeyLen && decide (inStoreLen > exStoreLen) then inc
    else if exLink == inLink && exImg == inImg && inTitleLen == exTitleLen
        && inKeyLen == exKeyLen && inStoreLen == exStoreLen
        && decide (inRemarkLen > exRemarkLen) then inc
    else if exLink == inLink && exImg == inImg && inTitleLen == exTitleLen
        && decide (inc.idx < ex.idx) then inc
    else ex

/-- keyword extraction of one V2 data row. -/
def rowKeyword (headers : List String) (r : List String) : String :=
  norm (jsOrFields (mapRow headers r) ["keyword", "Keyword"])

/-- store extraction of one V2 data row. -/
def rowStore (headers : List String) (r : List String) : String :=
  norm (jsOrFields (mapRow headers r) ["store", "Store"])

/-- remark extraction of one V2 data row. -/
def rowRemark (headers : List String) (r : List String) : String :=
  norm (jsOrFields (mapRow headers r) ["remark", "Remark"])

/-- The baseItem object built for every usable V2 row: _ts reuses the
prior active record _ts when present and nonzero (the JS or-else on a
falsy number), else the current run timestamp. -/
def rowBaseItem2 (headers : List String) (r : List String)
    (prevMap2 : List (String × Item2)) (nowTs rowIdx : Nat) : Item2 :=
  let market := rowMarket headers r
  let asin := rowAsin headers r
  { market := market, asin := asin,
    title := rowTitle headers r,
    keyword := rowKeyword headers r,
    store := rowStore headers r,
    remark := rowRemark headers r,
    status := norm ((rowStatus headers r).getD ""),
    link := rowLink headers r,
    image_url := rowImage headers r,
    idx := rowIdx,
    ts :=
      match aget prevMap2 (upper market ++ "|" ++ upper asin) with
      | some prev => if prev.ts = 0 then nowTs else prev.ts
      | none => nowTs,
    updated := nowTs,
    hidden_reason := none }

/-- Mutable state of the V2 row loop. -/
structure RunState2 where
  activeMap : List (String × Item2)
  archiveMap : List (String × Item2)
  dupActive : Nat
  rowIdx : Nat
  deriving Repr, DecidableEq

/-- One iteration of the V2 row loop: archive upserts always overwrite,
and the final active version of a key is mirrored into the archive Map. -/
def processRow2 (headers : List String) (prevMap2 : List (String × Item2)) (nowTs : Nat)
    (st : RunState2) (r : List String) : RunState2 :=
  let market := rowMarket headers r
  let asin := rowAsin headers r
  if market = "" ∨ asin = "" then { st with rowIdx := st.rowIdx + 1 }
  else
    let base := rowBaseItem2 headers r prevMap2 nowTs st.rowIdx
    let k := keyOf2 base
    if isNonAmazonByAsin asin then
      let item := { base with hidden_reason := some "non_amazon_numeric_asin" }
      { st with archiveMap := aset st.archiveMap k item, rowIdx := st.rowIdx + 1 }
    else if !(isActiveStatus (rowStatus headers r)) then
      let item := { base with hidden_reason := some "inactive_status" }
      { st with archiveMap := aset st.archiveMap k item, rowIdx := st.rowIdx + 1 }
    else
      let dup := ahas st.activeMap k
      let kept := if dup then pickBetter2 (aget st.activeMap k) base else base
      { activeMap := aset st.activeMap k kept,
        archiveMap := aset st.archiveMap k kept,
        dupActive := st.dupActive + (if dup then 1 else 0),
        rowIdx := st.rowIdx + 1 }

/-- Build a V2 Map keyed by keyOf2. -/
def buildMap2 (l : List Item2) : List (String × Item2) :=
  l.foldl (fun m p => aset m (keyOf2 p) p) []

/-- The record written for a removed key in V2: the prior record with the
removed_from_active tag unless it already carries a truthy tag. -/
def removedTag (oldP : Item2) : Item2 :=
  let tag :=
    match oldP.hidden_reason with
    | some s => if s = "" then "removed_from_active" else s
    | none => "removed_from_active"
  { oldP with hidden_reason := some tag }

/-- The removed-items loop of V2 main: missing keys are copied into the
archive Map tagged via removedTag when not already present. -/
def removedLoop2 (prevMap2 : List (String × Item2)) (nextKeys : List String)
    (archiveMap : List (String × Item2)) : List (String × Item2) × Nat :=
  removedLoopGen removedTag prevMap2 nextKeys archiveMap

/-- V2 archive sort order: upper market then upper asin. -/
def item2Le (a b : Item2) : Bool :=
  decide (upper a.market < upper b.market)
    || (upper a.market == upper b.market && decide (upper a.asin ≤ upper b.asin))

/-- State after the V2 row loop. -/
def rowsState2 (csvText : String) (nowTs : Nat) (prevProducts prevArchive : List Item2) :
    RunState2 :=
  (csvDataRows csvText).foldl (processRow2 (csvHeaders csvText) (buildMap2 prevProducts) nowTs)
    ⟨[], buildMap2 prevArchive, 0, 0⟩

/-- Outputs of one V2 reconciliation run. -/
structure SyncResult2 where
  nextProducts : List Item2
  nextArchive : List Item2
  dupActive : Nat
  removedCount : Nat
  deriving Repr, DecidableEq

/-- nextProducts of V2 main: active values sorted by the CSV row index. -/
def nextProducts2Def (csvText : String) (nowTs : Nat) (prevProducts prevArchive : List Item2) :
    List Item2 :=
  sortByLe (fun a b => decide (a.idx ≤ b.idx))
    (avalues (rowsState2 csvText nowTs prevProducts prevArchive).activeMap)

/-- The Set of next active keys in V2. -/
def nextKeys2Def (csvText : String) (nowTs : Nat) (prevProducts prevArchive : List Item2) :
    List String :=
  (nextProducts2Def csvText nowTs prevProducts prevArchive).map keyOf2

/-- Archive Map after the V2 removed-items loop. -/
def finalArchiveMap2 (csvText : String) (nowTs : Nat) (prevProducts prevArchive : List Item2) :
    List (String × Item2) :=
  (removedLoop2 (buildMap2 prevProducts) (nextKeys2Def csvText nowTs prevProducts prevArchive)
    (rowsState2 csvText nowTs prevProducts prevArchive).archiveMap).1

/-- The content phase of V2 main: nextProducts keeps CSV order via _idx,
nextArchive is the archive Map after the tagged removed-items loop. -/
def runSyncV2 (csvText : String) (nowTs : Nat) (prevProducts prevArchive : List Item2) :
    Except String SyncResult2 :=
  if parseCSV csvText = [] then .error "CSV is empty"
  else
    .ok ⟨nextProducts2Def csvText nowTs prevProducts prevArchive,
         sortByLe item2Le (avalues (finalArchiveMap2 csvText nowTs prevProducts prevArchive)),
         (rowsState2 csvText nowTs prevProducts prevArchive).dupActive,
         (removedLoop2 (buildMap2 prevProducts)
           (nextKeys2Def csvText nowTs prevProducts prevArchive)
           (rowsState2 csvText nowTs prevProducts prevArchive).archiveMap).2⟩

/-! Abstract file-system model for the page-tree publication (claim C7):
the published /p tree and the staging /p__tmp tree, each either absent or
holding the list of page paths written so far. -/

/-- The two directory trees relevant to publication. -/
structure PubFS where
  published : Option (List String)
  staging : Option (List String)
  deriving Repr, DecidableEq

/-- File-system operations performed by the page generators. -/
inductive FsOp where
  | rmPublished
  | mkPublished
  | writePub (p : String)
  | rmStaging
  | mkStaging
  | writeStag (p : String)
  | renameStagingToPublished
  deriving Repr, DecidableEq

/-- Effect of one operation: rm deletes a tree, mkdir creates it when
absent, a page write appends to a tree (creating it when needed, as
ensureDir precedes every write), and renameSync moves staging over the
published path. -/
def applyOp (fs : PubFS) : FsOp → PubFS
  | .rmPublished => { fs with published := none }
  | .mkPublished => { fs with published := some (fs.published.getD []) }
  | .writePub p => { fs with published := some ((fs.published.getD []) ++ [p]) }
  | .rmStaging => { fs with staging := none }
  | .mkStaging => { fs with staging := some (fs.staging.getD []) }
  | .writeStag p => { fs with staging := some ((fs.staging.getD []) ++ [p]) }
  | .renameStagingToPublished => { published := fs.staging, staging := none }

/-- Execute a prefix of the operations of a generator (an interruption is
modelled by executing only a prefix). -/
def runOps (fs : PubFS) (ops : List FsOp) : PubFS :=
  ops.foldl applyOp fs

/-- Output path of one page, market lowered, in the rev1 generator. -/
def pPagePath (p : Item) : String :=
  lowerStr (upper p.market) ++ "/" ++ upper p.asin

/-- Sort order used by generatePPages: upper market then upper asin. -/
def genSortLe (a b : Item) : Bool :=
  decide (upper a.market < upper b.market)
    || (upper a.market == upper b.market && decide (upper a.asin ≤ upper b.asin))

/-- The page paths generatePPages writes, in order. -/
def pPagePaths (activeList archiveList : List Item) : List String :=
  (sortByLe genSortLe
    ((activeList ++ archiveList).filter (fun p => p.market != "" && p.asin != ""))).map pPagePath

/-- The operation trace of generatePPages in scripts/sync_products.mjs:
delete the published tree, recreate it, then write every page directly
into it. There is no staging. -/
def genPPagesTrace (activeList archiveList : List Item) : List FsOp :=
  [.rmPublished, .mkPublished] ++ (pPagePaths activeList archiveList).map .writePub

/-- Key-dedup loop of the V2 generator. -/
def uniqGo : List Item2 → List String → List Item2
  | [], _ => []
  | p :: ps, seen =>
    if seen.contains (keyOf2 p) then uniqGo ps seen
    else p :: uniqGo ps (keyOf2 p :: seen)

/-- Output path of one page in the V2 generator. -/
def pPagePath2 (p : Item2) : String :=
  lowerStr (upper p.market) ++ "/" ++ upper p.asin

/-- The page paths the V2 generator writes into the staging tree. -/
def pPagePaths2 (activeList archiveList : List Item2) : List String :=
  (sortByLe item2Le
    (uniqGo ((activeList ++ archiveList).filter (fun p => p.market != "" && p.asin != "")) [])).map
    pPagePath2

/-- The operation trace of generatePPagesAndOgImages in part_002: clear
and recreate the staging tree, write every page into staging, then swap
by deleting the published tree and renaming staging onto it. -/
def genPPagesV2Trace (activeList archiveList : List Item2) : List FsOp :=
  [.rmStaging, .mkStaging] ++ (pPagePaths2 activeList archiveList).map .writeStag
    ++ [.rmPublished, .renameStagingToPublished]

/-! Library lemmas about the Map model, the stable sort and the folds. -/

theorem aget_aset {α : Type} (m : List (String × α)) (k k2 : String) (v : α) :
    aget (aset m k v) k2 = if k = k2 then some v else aget m k2 := by
  induction m with
  | nil => simp [aset, aget]
  | cons e rest ih =>
    obtain ⟨k1, v1⟩ := e
    simp only [aset]
    by_cases h1 : k1 = k
    · subst h1
      by_cases h2 : k1 = k2 <;> simp [aget, h2]
    · simp only [if_neg h1]
      by_cases h2 : k1 = k2
      · subst h2
        have hne : ¬ k1 = k := h1
        have hne2 : ¬ k = k1 := fun hh => h1 hh.symm
        simp [aget, hne2]
      · simp [aget, h2, ih]

theorem ahas_iff_aget {α : Type} (m : List (String × α)) (k : String) :
    ahas m k = true ↔ ∃ v, aget m k = some v := by
  induction m with
  | nil => simp [ahas, aget]
  | cons e rest ih =>
    by_cases h : e.1 = k <;> simp [ahas, aget, h, ih]

theorem ahas_aset {α : Type} (m : List (String × α)) (k k2 : String) (v : α) :
    ahas (aset m k v) k2 = true ↔ (k = k2 ∨ ahas m k2 = true) := by
  by_cases h : k = k2 <;>
    simp [ahas_iff_aget, aget_aset, h]

theorem aget_mem_avalues {α : Type} {m : List (String × α)} {k : String} {v : α}
    (h : aget m k = some v) : v ∈ avalues m := by
  induction m with
  | nil => simp [aget] at h
  | cons e rest ih =>
    by_cases h1 : e.1 = k
    · simp only [aget, if_pos h1] at h
      simp [avalues, Option.some.injEq] at h
      simp [avalues, h]
    · simp only [aget, if_neg h1] at h
      have := ih h
      simp [avalues] at this ⊢
      tauto

theorem mem_avalues_iff {α : Type} {m : List (String × α)} {v : α} :
    v ∈ avalues m ↔ ∃ k, (k, v) ∈ m := by
  constructor
  · intro h
    simp only [avalues, List.mem_map] at h
    obtain ⟨e, he, hv⟩ := h
    refine ⟨e.1, ?_⟩
    have : (e.1, v) = e := by
      obtain ⟨a, b⟩ := e
      simp only at hv
      simp [hv]
    rwa [this]
  · rintro ⟨k, hk⟩
    simp only [avalues, List.mem_map]
    exact ⟨(k, v), hk, rfl⟩

theorem ahas_of_mem {α : Type} {m : List (String × α)} {e : String × α}
    (h : e ∈ m) : ahas m e.1 = true := by
  induction m with
  | nil => simp at h
  | cons e2 rest ih =>
    rcases List.mem_cons.mp h with h | h
    · simp [ahas, h]
    · simp [ahas, ih h]

/-- Well-formedness of a Map: every entry is stored under the key computed
from its value. All Maps of the pipeline are keyed this way. -/
def wfMap {α : Type} (κ : α → String) (m : List (String × α)) : Prop :=
  ∀ e ∈ m, κ e.2 = e.1

theorem wfMap_nil {α : Type} (κ : α → String) : wfMap κ [] := by
  simp [wfMap]

theorem wfMap_aset {α : Type} {κ : α → String} {m : List (String × α)} {k : String} {v : α}
    (h : wfMap κ m) (hv : κ v = k) : wfMap κ (aset m k v) := by
  induction m with
  | nil => simpa [wfMap, aset] using hv
  | cons e rest ih =>
    have he : κ e.2 = e.1 := h e (by simp)
    have ht : wfMap κ rest := fun x hx => h x (by simp [hx])
    by_cases h1 : e.1 = k
    · intro x hx
      simp [aset, h1] at hx
      rcases hx with hx | hx
      · simp [hx, hv]
      · exact ht x hx
    · intro x hx
      simp [aset, h1] at hx
      rcases hx with hx | hx
      · simp [hx, he]
      · exact ih ht x hx

theorem wfMap_aget {α : Type} {κ : α → String} {m : List (String × α)} {k : String} {v : α}
    (h : wfMap κ m) (hg : aget m k = some v) : κ v = k := by
  induction m with
  | nil => simp [aget] at hg
  | cons e rest ih =>
    by_cases h1 : e.1 = k
    · simp [aget, h1] at hg
      have := h e (by simp)
      simp [hg] at this
      simpa [h1] using this
    · simp [aget, h1] at hg
      exact ih (fun x hx => h x (by simp [hx])) hg

theorem ahas_of_avalues_mem {α : Type} {κ : α → String} {m : List (String × α)} {v : α}
    (h : wfMap κ m) (hm : v ∈ avalues m) : ahas m (κ v) = true := by
  obtain ⟨k, hk⟩ := mem_avalues_iff.mp hm
  have := h (k, v) hk
  simp only at this
  subst this
  exact ahas_of_mem hk

theorem mem_insertSorted {α : Type} (le : α → α → Bool) (a b : α) (l : List α) :
    a ∈ insertSorted le b l ↔ a = b ∨ a ∈ l := by
  induction l with
  | nil => simp [insertSorted]
  | cons c cs ih =>
    simp only [insertSorted]
    split
    · simp
    · simp [ih]
      tauto

theorem mem_sortByLe {α : Type} (le : α → α → Bool) (a : α) (l : List α) :
    a ∈ sortByLe le l ↔ a ∈ l := by
  induction l with
  | nil => simp [sortByLe]
  | cons c cs ih =>
    simp only [sortByLe, List.foldr] at *
    rw [mem_insertSorted]
    simp [ih]

theorem fold_aset_mono {α : Type} (κ : α → String) (l : List α) (m : List (String × α))
    (k : String) (h : ahas m k = true) :
    ahas (l.foldl (fun m q => aset m (κ q) q) m) k = true := by
  induction l generalizing m with
  | nil => simpa using h
  | cons q rest ih =>
    simp only [List.foldl]
    exact ih _ ((ahas_aset _ _ _ _).mpr (Or.inr h))

theorem fold_aset_builds {α : Type} (κ : α → String) (l : List α) (m : List (String × α))
    (p : α) (h : p ∈ l) :
    ahas (l.foldl (fun m q => aset m (κ q) q) m) (κ p) = true := by
  induction l generalizing m with
  | nil => simp at h
  | cons q rest ih =>
    simp only [List.foldl]
    rcases List.mem_cons.mp h with h2 | h2
    · subst h2
      exact fold_aset_mono κ rest _ _ ((ahas_aset _ _ _ _).mpr (Or.inl rfl))
    · exact ih _ h2

theorem fold_aset_wf {α : Type} (κ : α → String) (l : List α) (m : List (String × α))
    (h : wfMap κ m) :
    wfMap κ (l.foldl (fun m q => aset m (κ q) q) m) := by
  induction l generalizing m with
  | nil => simpa using h
  | cons q rest ih =>
    simp only [List.foldl]
    exact ih _ (wfMap_aset h rfl)

theorem fold_aset_origin {α : Type} (κ : α → String) (l : List α) (m : List (String × α))
    (k : String) (h : ahas (l.foldl (fun m q => aset m (κ q) q) m) k = true) :
    ahas m k = true ∨ ∃ q ∈ l, κ q = k := by
  induction l generalizing m with
  | nil => exact Or.inl (by simpa using h)
  | cons q rest ih =>
    simp only [List.foldl] at h
    rcases ih _ h with h2 | ⟨q2, hq2, hk⟩
    · rcases (ahas_aset _ _ _ _).mp h2 with h3 | h3
      · exact Or.inr ⟨q, by simp, h3⟩
      · exact Or.inl h3
    · exact Or.inr ⟨q2, by simp [hq2], hk⟩

theorem buildMap_ahas {l : List Item} {p : Item} (h : p ∈ l) :
    ahas (buildMap l) (keyOf p) = true :=
  fold_aset_builds keyOf l [] p h

theorem buildMap_wf (l : List Item) : wfMap keyOf (buildMap l) :=
  fold_aset_wf keyOf l [] (wfMap_nil keyOf)

theorem buildMap_origin {l : List Item} {k : String} (h : ahas (buildMap l) k = true) :
    ∃ p ∈ l, keyOf p = k := by
  rcases fold_aset_origin keyOf l [] k h with h2 | h2
  · simp [ahas] at h2
  · exact h2

theorem buildMap2_wf (l : List Item2) : wfMap keyOf2 (buildMap2 l) :=
  fold_aset_wf keyOf2 l [] (wfMap_nil keyOf2)

/-! A classification view of the row step, used to reason about
processRow by cases. -/

/-- The four branches of the row loop body. -/
inductive RowClass where
  | skip
  | nonAmazon
  | inactive
  | active
  deriving Repr, DecidableEq

/-- Which branch a data row takes. -/
def classifyRow (headers : List String) (r : List String) : RowClass :=
  if rowMarket headers r = "" ∨ rowAsin headers r = "" then .skip
  else if isNonAmazonByAsin (rowAsin headers r) then .nonAmazon
  else if !(isActiveStatus (rowStatus headers r)) then .inactive
  else .active

/-- The record a row builds, with the given hidden_reason. -/
def rowItemTagged (headers : List String) (r : List String) (reason : Option String) : Item :=
  ⟨rowMarket headers r, rowAsin headers r, rowTitle headers r,
   rowLink headers r, rowImage headers r, reason⟩

theorem keyOf_rowItemTagged (headers : List String) (r : List String) (reason : Option String) :
    keyOf (rowItemTagged headers r reason) = rowKeyOf headers r := rfl

theorem processRow_skip {headers : List String} {r : List String}
    (h : classifyRow headers r = .skip) (st : RunState) :
    processRow headers st r = st := by
  simp only [classifyRow] at h
  simp only [processRow]
  split_ifs at h ⊢ <;> simp_all

theorem processRow_nonAmazon {headers : List String} {r : List String}
    (h : classifyRow headers r = .nonAmazon) (st : RunState) :
    processRow headers st r =
      if ahas st.archiveMap (rowKeyOf headers r) then st
      else { st with archiveMap := aset st.archiveMap (rowKeyOf headers r) (rowItemTagged headers r (some "non_amazon_numeric_asin")) } := by
  simp only [classifyRow] at h
  simp only [processRow, rowItemTagged, rowKeyOf, keyOf]
  split_ifs at h ⊢ <;> simp_all

theorem processRow_inactive {headers : List String} {r : List String}
    (h : classifyRow headers r = .inactive) (st : RunState) :
    processRow headers st r =
      if ahas st.archiveMap (rowKeyOf headers r) then st
      else { st with archiveMap := aset st.archiveMap (rowKeyOf headers r) (rowItemTagged headers r (some "inactive_status")) } := by
  simp only [classifyRow] at h
  simp only [processRow, rowItemTagged, rowKeyOf, keyOf]
  split_ifs at h ⊢ <;> simp_all

theorem processRow_active {headers : List String} {r : List String}
    (h : classifyRow headers r = .active) (st : RunState) :
    processRow headers st r =
      if ahas st.activeMap (rowKeyOf headers r) then
        { activeMap := aset st.activeMap (rowKeyOf headers r)
            (pickBetter (aget st.activeMap (rowKeyOf headers r)) (rowItemTagged headers r none)),
          archiveMap := st.archiveMap,
          dupActive := st.dupActive + 1 }
      else { st with activeMap := aset st.activeMap (rowKeyOf headers r) (rowItemTagged headers r none) } := by
  simp only [classifyRow] at h
  simp only [processRow, rowItemTagged, rowKeyOf, keyOf]
  split_ifs at h ⊢ <;> simp_all

theorem classify_nonAmazon_digits {headers r}
    (h : classifyRow headers r = .nonAmazon) :
    isNonAmazonByAsin (rowAsin headers r) = true := by
  simp only [classifyRow] at h
  split_ifs at h <;> simp_all

theorem classify_inactive_not_digits {headers r}
    (h : classifyRow headers r = .inactive) :
    isNonAmazonByAsin (rowAsin headers r) = false := by
  simp only [classifyRow] at h
  split_ifs at h <;> simp_all

theorem classify_active_not_digits {headers r}
    (h : classifyRow headers r = .active) :
    isNonAmazonByAsin (rowAsin headers r) = false := by
  simp only [classifyRow] at h
  split_ifs at h <;> simp_all

theorem pickBetter_some_eq_or (e i : Item) :
    pickBetter (some e) i = i ∨ pickBetter (some e) i = e := by
  simp only [pickBetter]
  split_ifs <;> simp

theorem keyOf_pickBetter {m : List (String × Item)} {k : String} {item : Item}
    (hwf : wfMap keyOf m) (hitem : keyOf item = k) :
    keyOf (pickBetter (aget m k) item) = k := by
  cases haget : aget m k with
  | none => simpa [pickBetter] using hitem
  | some e =>
    have he : keyOf e = k := wfMap_aget hwf haget
    rcases pickBetter_some_eq_or e item with h | h <;> simp [h, he, hitem]

theorem processRow_archive_mono {headers : List String} {st : RunState} {r : List String}
    {k : String} (h : ahas st.archiveMap k = true) :
    ahas (processRow headers st r).archiveMap k = true := by
  cases hcl : classifyRow headers r
  · rw [processRow_skip hcl]
    exact h
  · rw [processRow_nonAmazon hcl]
    split_ifs with hh
    · exact h
    · exact (ahas_aset _ _ _ _).mpr (Or.inr h)
  · rw [processRow_inactive hcl]
    split_ifs with hh
    · exact h
    · exact (ahas_aset _ _ _ _).mpr (Or.inr h)
  · rw [processRow_active hcl]
    split_ifs with hh <;> exact h

theorem processRow_archive_preserve {headers : List String} {st : RunState} {r : List String}
    {k : String} {v : Item} (h : aget st.archiveMap k = some v) :
    aget (processRow headers st r).archiveMap k = some v := by
  have hhas : ahas st.archiveMap k = true := (ahas_iff_aget _ _).mpr ⟨v, h⟩
  cases hcl : classifyRow headers r
  · rw [processRow_skip hcl]
    exact h
  · rw [processRow_nonAmazon hcl]
    split_ifs with hh
    · exact h
    · rw [aget_aset]
      split_ifs with hk
      · rw [hk, hhas] at hh
        simp at hh
      · exact h
  · rw [processRow_inactive hcl]
    split_ifs with hh
    · exact h
    · rw [aget_aset]
      split_ifs with hk
      · rw [hk, hhas] at hh
        simp at hh
      · exact h
  · rw [processRow_active hcl]
    split_ifs with hh <;> exact h

theorem processRow_archive_origin {headers : List String} {st : RunState} {r : List String}
    {k : String} (h : ahas (processRow headers st r).archiveMap k = true) :
    ahas st.archiveMap k = true ∨ rowKeyOf headers r = k := by
  cases hcl : classifyRow headers r
  · rw [processRow_skip hcl] at h
    exact Or.inl h
  · rw [processRow_nonAmazon hcl] at h
    split_ifs at h with hh
    · exact Or.inl h
    · rcases (ahas_aset _ _ _ _).mp h with h2 | h2
      · exact Or.inr h2
      · exact Or.inl h2
  · rw [processRow_inactive hcl] at h
    split_ifs at h with hh
    · exact Or.inl h
    · rcases (ahas_aset _ _ _ _).mp h with h2 | h2
      · exact Or.inr h2
      · exact Or.inl h2
  · rw [processRow_active hcl] at h
    split_ifs at h with hh <;> exact Or.inl h

theorem processRow_wf {headers : List String} {st : RunState} {r : List String}
    (hwa : wfMap keyOf st.activeMap) (hwr : wfMap keyOf st.archiveMap) :
    wfMap keyOf (processRow headers st r).activeMap ∧
      wfMap keyOf (processRow headers st r).archiveMap := by
  cases hcl : classifyRow headers r
  · rw [processRow_skip hcl]
    exact ⟨hwa, hwr⟩
  · rw [processRow_nonAmazon hcl]
    split_ifs with hh
    · exact ⟨hwa, hwr⟩
    · exact ⟨hwa, wfMap_aset hwr (keyOf_rowItemTagged _ _ _)⟩
  · rw [processRow_inactive hcl]
    split_ifs with hh
    · exact ⟨hwa, hwr⟩
    · exact ⟨hwa, wfMap_aset hwr (keyOf_rowItemTagged _ _ _)⟩
  · rw [processRow_active hcl]
    split_ifs with hh
    · exact ⟨wfMap_aset hwa (keyOf_pickBetter hwa (keyOf_rowItemTagged _ _ _)), hwr⟩
    · exact ⟨wfMap_aset hwa (keyOf_rowItemTagged _ _ _), hwr⟩

theorem rowsFold_archive_mono (headers : List String) (rows : List (List String)) :
    ∀ (st : RunState) (k : String), ahas st.archiveMap k = true →
      ahas ((rows.foldl (processRow headers) st)).archiveMap k = true := by
  induction rows with
  | nil => intro st k h; simpa using h
  | cons r rest ih =>
    intro st k h
    simp only [List.foldl]
    exact ih _ _ (processRow_archive_mono h)

theorem rowsFold_archive_preserve (headers : List String) (rows : List (List String)) :
    ∀ (st : RunState) (k : String) (v : Item), aget st.archiveMap k = some v →
      aget ((rows.foldl (processRow headers) st)).archiveMap k = some v := by
  induction rows with
  | nil => intro st k v h; simpa using h
  | cons r rest ih =>
    intro st k v h
    simp only [List.foldl]
    exact ih _ _ _ (processRow_archive_preserve h)

theorem rowsFold_wf (headers : List String) (rows : List (List String)) :
    ∀ (st : RunState), wfMap keyOf st.activeMap → wfMap keyOf st.archiveMap →
      wfMap keyOf ((rows.foldl (processRow headers) st)).activeMap ∧
      wfMap keyOf ((rows.foldl (processRow headers) st)).archiveMap := by
  induction rows with
  | nil => intro st h1 h2; exact ⟨h1, h2⟩
  | cons r rest ih =>
    intro st h1 h2
    simp only [List.foldl]
    obtain ⟨h3, h4⟩ := @processRow_wf headers st r h1 h2
    exact ih _ h3 h4

theorem rowsFold_archive_origin (headers : List String) (rows : List (List String)) :
    ∀ (st : RunState) (k : String),
      ahas ((rows.foldl (processRow headers) st)).archiveMap k = true →
      ahas st.archiveMap k = true ∨ ∃ r ∈ rows, rowKeyOf headers r = k := by
  induction rows with
  | nil => intro st k h; exact Or.inl (by simpa using h)
  | cons r rest ih =>
    intro st k h
    simp only [List.foldl] at h
    rcases ih _ _ h with h2 | ⟨r2, hr2, hk⟩
    · rcases processRow_archive_origin h2 with h3 | h3
      · exact Or.inl h3
      · exact Or.inr ⟨r, by simp, h3⟩
    · exact Or.inr ⟨r2, by simp [hr2], hk⟩

theorem removedFold_mono {α : Type} (f : α → α) (nk : List String)
    (pm : List (String × α)) :
    ∀ (acc : List (String × α) × Nat) (k : String), ahas acc.1 k = true →
      ahas (pm.foldl (removedStep f nk) acc).1 k = true := by
  induction pm with
  | nil => intro acc k h; simpa using h
  | cons e rest ih =>
    intro acc k h
    simp only [List.foldl]
    apply ih
    simp only [removedStep]
    split_ifs with h1 h2
    · exact h
    · exact h
    · exact (ahas_aset _ _ _ _).mpr (Or.inr h)

theorem removedFold_preserve {α : Type} (f : α → α) (nk : List String)
    (pm : List (String × α)) :
    ∀ (acc : List (String × α) × Nat) (k : String) (v : α), aget acc.1 k = some v →
      aget (pm.foldl (removedStep f nk) acc).1 k = some v := by
  induction pm with
  | nil => intro acc k v h; simpa using h
  | cons e rest ih =>
    intro acc k v h
    simp only [List.foldl]
    apply ih
    simp only [removedStep]
    split_ifs with h1 h2
    · exact h
    · exact h
    · rw [aget_aset]
      split_ifs with hk
      · rw [hk] at h2
        exact absurd ((ahas_iff_aget _ _).mpr ⟨v, h⟩) (by simpa using h2)
      · exact h

theorem removedFold_adds {α : Type} (f : α → α) (nk : List String)
    (pm : List (String × α)) :
    ∀ (acc : List (String × α) × Nat) (k : String) (oldP : α),
      aget pm k = some oldP → nk.contains k = false → ahas acc.1 k = false →
      aget (pm.foldl (removedStep f nk) acc).1 k = some (f oldP) := by
  induction pm with
  | nil => intro acc k oldP h; simp [aget] at h
  | cons e rest ih =>
    intro acc k oldP hget hnk hfresh
    simp only [List.foldl]
    by_cases hk : e.1 = k
    · simp only [aget, if_pos hk, Option.some.injEq] at hget
      subst hget
      have hstep : (removedStep f nk acc e).1 = aset acc.1 k (f e.2) := by
        simp only [removedStep, hk, hnk]
        simp [hfresh]
      apply removedFold_preserve
      rw [hstep, aget_aset]
      simp
    · simp only [aget, if_neg hk] at hget
      apply ih _ _ _ hget hnk
      simp only [removedStep]
      split_ifs with h1 h2
      · exact hfresh
      · exact hfresh
      · rw [show (ahas (aset acc.1 e.1 (f e.2)) k = false) =
            (¬ ahas (aset acc.1 e.1 (f e.2)) k = true) from by simp]
        intro hcon
        rcases (ahas_aset _ _ _ _).mp hcon with h3 | h3
        · exact hk h3
        · rw [h3] at hfresh
          simp at hfresh

theorem removedFold_wf {α : Type} (κ : α → String) (f : α → α) (nk : List String)
    (pm : List (String × α)) :
    ∀ (acc : List (String × α) × Nat), wfMap κ acc.1 →
      (∀ e ∈ pm, κ (f e.2) = e.1) →
      wfMap κ (pm.foldl (removedStep f nk) acc).1 := by
  induction pm with
  | nil => intro acc h _; simpa using h
  | cons e rest ih =>
    intro acc h hpm
    simp only [List.foldl]
    apply ih
    · simp only [removedStep]
      split_ifs with h1 h2
      · exact h
      · exact h
      · exact wfMap_aset h (hpm e (by simp))
    · intro e2 he2
      exact hpm e2 (by simp [he2])

theorem removedFold_origin {α : Type} (f : α → α) (nk : List String)
    (pm : List (String × α)) :
    ∀ (acc : List (String × α) × Nat) (k : String),
      ahas (pm.foldl (removedStep f nk) acc).1 k = true →
      ahas acc.1 k = true ∨ ∃ e ∈ pm, e.1 = k := by
  induction pm with
  | nil => intro acc k h; exact Or.inl (by simpa using h)
  | cons e rest ih =>
    intro acc k h
    simp only [List.foldl] at h
    rcases ih _ _ h with h2 | ⟨e2, he2, hk⟩
    · simp only [removedStep] at h2
      split_ifs at h2 with h3 h4
      · exact Or.inl h2
      · exact Or.inl h2
      · rcases (ahas_aset _ _ _ _).mp h2 with h5 | h5
        · exact Or.inr ⟨e, by simp, h5⟩
        · exact Or.inl h5
    · exact Or.inr ⟨e2, by simp [he2], hk⟩

theorem runSync_ok {csvText : String} {prevProducts prevArchive : List Item}
    {res : SyncResult} :
    runSync csvText prevProducts prevArchive = .ok res ↔
      (¬ parseCSV csvText = [] ∧
        res = ⟨nextProductsDef csvText prevArchive,
               nextArchiveDef csvText prevProducts prevArchive,
               (rowsState csvText prevArchive).dupActive,
               removedCountDef csvText prevProducts prevArchive⟩) := by
  simp only [runSync]
  split_ifs with h <;> simp [h, eq_comm]

theorem rowsState_archive_wf (csvText : String) (prevArchive : List Item) :
    wfMap keyOf (rowsState csvText prevArchive).archiveMap :=
  (rowsFold_wf _ _ ⟨[], buildMap prevArchive, 0⟩ (wfMap_nil keyOf) (buildMap_wf prevArchive)).2

theorem rowsState_active_wf (csvText : String) (prevArchive : List Item) :
    wfMap keyOf (rowsState csvText prevArchive).activeMap :=
  (rowsFold_wf _ _ ⟨[], buildMap prevArchive, 0⟩ (wfMap_nil keyOf) (buildMap_wf prevArchive)).1

theorem finalArchive_wf (csvText : String) (prevProducts prevArchive : List Item) :
    wfMap keyOf (finalArchiveMap csvText prevProducts prevArchive) := by
  apply removedFold_wf
  · exact rowsState_archive_wf csvText prevArchive
  · exact buildMap_wf prevProducts

theorem mem_nextArchive_of_aget {csvText : String} {prevProducts prevArchive : List Item}
    {k : String} {v : Item}
    (h : aget (finalArchiveMap csvText prevProducts prevArchive) k = some v) :
    v ∈ nextArchiveDef csvText prevProducts prevArchive := by
  simp only [nextArchiveDef]
  exact (mem_sortByLe _ _ _).mpr (aget_mem_avalues h)

/-- C1: Archive monotonicity. Every (market, asin) key of the prior
persisted archive list is still a key of the next archive produced by a
successful reconciliation run: the working archive Map is initialised from
the prior archive and entries are only ever inserted or replaced in place,
never removed. -/
theorem C1_archive_monotonic (csvText : String) (prevProducts prevArchive : List Item)
    (res : SyncResult) (p : Item)
    (hok : runSync csvText prevProducts prevArchive = .ok res)
    (hmem : p ∈ prevArchive) :
    keyOf p ∈ res.nextArchive.map keyOf := by
  obtain ⟨hne, hres⟩ := runSync_ok.mp hok
  subst hres
  have h1 : ahas (buildMap prevArchive) (keyOf p) = true := buildMap_ahas hmem
  have h2 : ahas (rowsState csvText prevArchive).archiveMap (keyOf p) = true := by
    simp only [rowsState]
    exact rowsFold_archive_mono _ _ ⟨[], buildMap prevArchive, 0⟩ _ h1
  have h3 : ahas (finalArchiveMap csvText prevProducts prevArchive) (keyOf p) = true := by
    simp only [finalArchiveMap, removedLoop, removedLoopGen]
    exact removedFold_mono _ _ _ _ _ h2
  obtain ⟨v, hv⟩ := (ahas_iff_aget _ _).mp h3
  have hkv : keyOf v = keyOf p := wfMap_aget (finalArchive_wf csvText prevProducts prevArchive) hv
  exact List.mem_map.mpr ⟨v, mem_nextArchive_of_aget hv, hkv⟩

/-- Witness for C1 at a concrete run: a header-only feed with a prior
archive of one record keeps the key of that record in the next archive. -/
theorem C1_archive_monotonic_witness :
    keyOf (⟨"UK", "B0ABC00000", "t", "", "", none⟩ : Item) ∈
      (⟨[], [⟨"UK", "B0ABC00000", "t", "", "", none⟩], 0, 0⟩ : SyncResult).nextArchive.map keyOf :=
  C1_archive_monotonic "market,asin\n" [] [⟨"UK", "B0ABC00000", "t", "", "", none⟩]
    ⟨[], [⟨"UK", "B0ABC00000", "t", "", "", none⟩], 0, 0⟩
    ⟨"UK", "B0ABC00000", "t", "", "", none⟩ (by rfl) (by simp)

/-! Lemmas about the V2 row step. -/

theorem keyOf2_rowBaseItem2 (headers r : List String) (pm : List (String × Item2))
    (nowTs rowIdx : Nat) :
    keyOf2 (rowBaseItem2 headers r pm nowTs rowIdx) = rowKeyOf headers r := rfl

theorem keyOf2_removedTag (p : Item2) : keyOf2 (removedTag p) = keyOf2 p := rfl

theorem pickBetter2_some_eq_or (e i : Item2) :
    pickBetter2 (some e) i = i ∨ pickBetter2 (some e) i = e := by
  simp only [pickBetter2]
  split_ifs <;> simp

theorem keyOf2_pickBetter2 {m : List (String × Item2)} {k : String} {item : Item2}
    (hwf : wfMap keyOf2 m) (hitem : keyOf2 item = k) :
    keyOf2 (pickBetter2 (aget m k) item) = k := by
  cases haget : aget m k with
  | none => simpa [pickBetter2] using hitem
  | some e =>
    have he : keyOf2 e = k := wfMap_aget hwf haget
    rcases pickBetter2_some_eq_or e item with h | h <;> simp [h, he, hitem]

theorem processRow2_archive_origin {headers : List String} {pm : List (String × Item2)}
    {nowTs : Nat} {st : RunState2} {r : List String} {k : String}
    (h : ahas (processRow2 headers pm nowTs st r).archiveMap k = true) :
    ahas st.archiveMap k = true ∨ rowKeyOf headers r = k := by
  simp only [processRow2] at h
  split_ifs at h with h1 h2 h3 h4
  · exact Or.inl h
  · rcases (ahas_aset _ _ _ _).mp h with h5 | h5
    · exact Or.inr h5
    · exact Or.inl h5
  · rcases (ahas_aset _ _ _ _).mp h with h5 | h5
    · exact Or.inr h5
    · exact Or.inl h5
  · rcases (ahas_aset _ _ _ _).mp h with h5 | h5
    · exact Or.inr h5
    · exact Or.inl h5
  · rcases (ahas_aset _ _ _ _).mp h with h5 | h5
    · exact Or.inr h5
    · exact Or.inl h5

theorem processRow2_active_origin {headers : List String} {pm : List (String × Item2)}
    {nowTs : Nat} {st : RunState2} {r : List String} {k : String}
    (h : ahas (processRow2 headers pm nowTs st r).activeMap k = true) :
    ahas st.activeMap k = true ∨ rowKeyOf headers r = k := by
  simp only [processRow2] at h
  split_ifs at h with h1 h2 h3 h4
  · exact Or.inl h
  · exact Or.inl h
  · exact Or.inl h
  · rcases (ahas_aset _ _ _ _).mp h with h5 | h5
    · exact Or.inr h5
    · exact Or.inl h5
  · rcases (ahas_aset _ _ _ _).mp h with h5 | h5
    · exact Or.inr h5
    · exact Or.inl h5

theorem processRow2_wf {headers : List String} {pm : List (String × Item2)}
    {nowTs : Nat} {st : RunState2} {r : List String}
    (hwa : wfMap keyOf2 st.activeMap) (hwr : wfMap keyOf2 st.archiveMap) :
    wfMap keyOf2 (processRow2 headers pm nowTs st r).activeMap ∧
      wfMap keyOf2 (processRow2 headers pm nowTs st r).archiveMap := by
  simp only [processRow2]
  split_ifs with h1 h2 h3 h4
  · exact ⟨hwa, hwr⟩
  · exact ⟨hwa, wfMap_aset hwr rfl⟩
  · exact ⟨hwa, wfMap_aset hwr rfl⟩
  · exact ⟨wfMap_aset hwa (keyOf2_pickBetter2 hwa rfl),
      wfMap_aset hwr (keyOf2_pickBetter2 hwa rfl)⟩
  · exact ⟨wfMap_aset hwa rfl, wfMap_aset hwr rfl⟩

theorem rowsFold2_archive_origin (headers : List String) (pm : List (String × Item2))
    (nowTs : Nat) (rows : List (List String)) :
    ∀ (st : RunState2) (k : String),
      ahas ((rows.foldl (processRow2 headers pm nowTs) st)).archiveMap k = true →
      ahas st.archiveMap k = true ∨ ∃ r ∈ rows, rowKeyOf headers r = k := by
  induction rows with
  | nil => intro st k h; exact Or.inl (by simpa using h)
  | cons r rest ih =>
    intro st k h
    simp only [List.foldl] at h
    rcases ih _ _ h with h2 | ⟨r2, hr2, hk⟩
    · rcases processRow2_archive_origin h2 with h3 | h3
      · exact Or.inl h3
      · exact Or.inr ⟨r, by simp, h3⟩
    · exact Or.inr ⟨r2, by simp [hr2], hk⟩

theorem rowsFold2_active_origin (headers : List String) (pm : List (String × Item2))
    (nowTs : Nat) (rows : List (List String)) :
    ∀ (st : RunState2) (k : String),
      ahas ((rows.foldl (processRow2 headers pm nowTs) st)).activeMap k = true →
      ahas st.activeMap k = true ∨ ∃ r ∈ rows, rowKeyOf headers r = k := by
  induction rows with
  | nil => intro st k h; exact Or.inl (by simpa using h)
  | cons r rest ih =>
    intro st k h
    simp only [List.foldl] at h
    rcases ih _ _ h with h2 | ⟨r2, hr2, hk⟩
    · rcases processRow2_active_origin h2 with h3 | h3
      · exact Or.inl h3
      · exact Or.inr ⟨r, by simp, h3⟩
    · exact Or.inr ⟨r2, by simp [hr2], hk⟩

theorem rowsFold2_wf (headers : List String) (pm : List (String × Item2)) (nowTs : Nat)
    (rows : List (List String)) :
    ∀ (st : RunState2), wfMap keyOf2 st.activeMap → wfMap keyOf2 st.archiveMap →
      wfMap keyOf2 ((rows.foldl (processRow2 headers pm nowTs) st)).activeMap ∧
      wfMap keyOf2 ((rows.foldl (processRow2 headers pm nowTs) st)).archiveMap := by
  induction rows with
  | nil => intro st h1 h2; exact ⟨h1, h2⟩
  | cons r rest ih =>
    intro st h1 h2
    simp only [List.foldl]
    obtain ⟨h3, h4⟩ := @processRow2_wf headers pm nowTs st r h1 h2
    exact ih _ h3 h4

theorem runSyncV2_ok {csvText : String} {nowTs : Nat} {prevProducts prevArchive : List Item2}
    {res : SyncResult2} :
    runSyncV2 csvText nowTs prevProducts prevArchive = .ok res ↔
      (¬ parseCSV csvText = [] ∧
        res = ⟨nextProducts2Def csvText nowTs prevProducts prevArchive,
               sortByLe item2Le
                 (avalues (finalArchiveMap2 csvText nowTs prevProducts prevArchive)),
               (rowsState2 csvText nowTs prevProducts prevArchive).dupActive,
               (removedLoop2 (buildMap2 prevProducts)
                 (nextKeys2Def csvText nowTs prevProducts prevArchive)
                 (rowsState2 csvText nowTs prevProducts prevArchive).archiveMap).2⟩) := by
  simp only [runSyncV2]
  split_ifs with h <;> simp [h, eq_comm]

theorem processRow_active_origin {headers : List String} {st : RunState} {r : List String}
    {k : String} (h : ahas (processRow headers st r).activeMap k = true) :
    ahas st.activeMap k = true ∨ rowKeyOf headers r = k := by
  cases hcl : classifyRow headers r
  · rw [processRow_skip hcl] at h
    exact Or.inl h
  · rw [processRow_nonAmazon hcl] at h
    split_ifs at h with hh <;> exact Or.inl h
  · rw [processRow_inactive hcl] at h
    split_ifs at h with hh <;> exact Or.inl h
  · rw [processRow_active hcl] at h
    split_ifs at h with hh <;>
      rcases (ahas_aset _ _ _ _).mp h with h2 | h2
    · exact Or.inr h2
    · exact Or.inl h2
    · exact Or.inr h2
    · exact Or.inl h2

theorem rowsFold_active_origin (headers : List String) (rows : List (List String)) :
    ∀ (st : RunState) (k : String),
      ahas ((rows.foldl (processRow headers) st)).activeMap k = true →
      ahas st.activeMap k = true ∨ ∃ r ∈ rows, rowKeyOf headers r = k := by
  induction rows with
  | nil => intro st k h; exact Or.inl (by simpa using h)
  | cons r rest ih =>
    intro st k h
    simp only [List.foldl] at h
    rcases ih _ _ h with h2 | ⟨r2, hr2, hk⟩
    · rcases processRow_active_origin h2 with h3 | h3
      · exact Or.inl h3
      · exact Or.inr ⟨r, by simp, h3⟩
    · exact Or.inr ⟨r2, by simp [hr2], hk⟩

theorem rowsState2_active_wf (csvText : String) (nowTs : Nat)
    (prevProducts prevArchive : List Item2) :
    wfMap keyOf2 (rowsState2 csvText nowTs prevProducts prevArchive).activeMap :=
  (rowsFold2_wf _ _ _ _ ⟨[], buildMap2 prevArchive, 0, 0⟩ (wfMap_nil keyOf2)
    (buildMap2_wf prevArchive)).1

theorem rowsState2_archive_wf (csvText : String) (nowTs : Nat)
    (prevProducts prevArchive : List Item2) :
    wfMap keyOf2 (rowsState2 csvText nowTs prevProducts prevArchive).archiveMap :=
  (rowsFold2_wf _ _ _ _ ⟨[], buildMap2 prevArchive, 0, 0⟩ (wfMap_nil keyOf2)
    (buildMap2_wf prevArchive)).2

/-- C2 counterexample, refuting the claim as stated on the code of
scripts/sync_products.mjs: with a prior active record for UK/B0ABC00000,
empty prior archive and a feed that omits the row, the next active
excludes the key and the next archive does include the record, but the
record is copied forward unchanged and carries no removed_from_active
hidden reason (no record in the next archive does). -/
theorem C2_counterexample :
    runSync "market,asin\n" [⟨"UK", "B0ABC00000", "t", "", "", none⟩] [] =
      .ok ⟨[], [⟨"UK", "B0ABC00000", "t", "", "", none⟩], 0, 1⟩ ∧
    (∀ e ∈ (⟨[], [⟨"UK", "B0ABC00000", "t", "", "", none⟩], 0, 1⟩ : SyncResult).nextArchive,
      ¬ e.hidden_reason = some "removed_from_active") := by
  exact ⟨rfl, by decide⟩

/-- C2 (amended): for a key present in the prior active collection whose
(market, asin) key occurs in no data row of the feed and is not in the
prior archive, the next active collection excludes the key, and the next
archive includes the prior record; in scripts/sync_products.mjs the record
is copied forward unchanged (in particular untagged), while in the V2
revision of part_002 it is copied forward tagged removed_from_active via
removedTag. -/
theorem C2_removed_transition :
    (∀ (csvText : String) (prevProducts prevArchive : List Item) (res : SyncResult)
        (k : String) (oldP : Item),
      runSync csvText prevProducts prevArchive = .ok res →
      aget (buildMap prevProducts) k = some oldP →
      (∀ r ∈ csvDataRows csvText, ¬ rowKeyOf (csvHeaders csvText) r = k) →
      ahas (buildMap prevArchive) k = false →
      k ∉ res.nextProducts.map keyOf ∧ oldP ∈ res.nextArchive) ∧
    (∀ (csvText : String) (nowTs : Nat) (prevProducts prevArchive : List Item2)
        (res : SyncResult2) (k : String) (oldP : Item2),
      runSyncV2 csvText nowTs prevProducts prevArchive = .ok res →
      aget (buildMap2 prevProducts) k = some oldP →
      (∀ r ∈ csvDataRows csvText, ¬ rowKeyOf (csvHeaders csvText) r = k) →
      ahas (buildMap2 prevArchive) k = false →
      k ∉ res.nextProducts.map keyOf2 ∧ removedTag oldP ∈ res.nextArchive) := by
  constructor
  · intro csvText pP pA res k oldP hok hprev hfeed hnota
    obtain ⟨hne, hres⟩ := runSync_ok.mp hok
    subst hres
    have harch : ahas (rowsState csvText pA).archiveMap k = false := by
      cases hb : ahas (rowsState csvText pA).archiveMap k
      · rfl
      · exfalso
        rcases rowsFold_archive_origin _ _ ⟨[], buildMap pA, 0⟩ _ hb with h2 | ⟨r, hr, hk⟩
        · rw [hnota] at h2
          simp at h2
        · exact hfeed r hr hk
    have hact : ahas (rowsState csvText pA).activeMap k = false := by
      cases hb : ahas (rowsState csvText pA).activeMap k
      · rfl
      · exfalso
        rcases rowsFold_active_origin _ _ ⟨[], buildMap pA, 0⟩ _ hb with h2 | ⟨r, hr, hk⟩
        · simp [ahas] at h2
        · exact hfeed r hr hk
    have hexcl : k ∉ (nextProductsDef csvText pA).map keyOf := by
      intro hmem
      obtain ⟨v, hv, hkv⟩ := List.mem_map.mp hmem
      simp only [nextProductsDef] at hv
      have hv2 := (mem_sortByLe _ _ _).mp hv
      have hh := ahas_of_avalues_mem (rowsState_active_wf csvText pA) hv2
      rw [hkv, hact] at hh
      simp at hh
    refine ⟨hexcl, ?_⟩
    have hcont : (nextKeysDef csvText pA).contains k = false := by
      simp only [nextKeysDef]
      simpa using hexcl
    have hadd : aget (finalArchiveMap csvText pP pA) k = some oldP := by
      simp only [finalArchiveMap, removedLoop, removedLoopGen]
      exact removedFold_adds _ _ _ _ _ _ hprev hcont harch
    exact mem_nextArchive_of_aget hadd
  · intro csvText nowTs pP pA res k oldP hok hprev hfeed hnota
    obtain ⟨hne, hres⟩ := runSyncV2_ok.mp hok
    subst hres
    have harch : ahas (rowsState2 csvText nowTs pP pA).archiveMap k = false := by
      cases hb : ahas (rowsState2 csvText nowTs pP pA).archiveMap k
      · rfl
      · exfalso
        rcases rowsFold2_archive_origin _ _ _ _ ⟨[], buildMap2 pA, 0, 0⟩ _ hb with
          h2 | ⟨r, hr, hk⟩
        · rw [hnota] at h2
          simp at h2
        · exact hfeed r hr hk
    have hact : ahas (rowsState2 csvText nowTs pP pA).activeMap k = false := by
      cases hb : ahas (rowsState2 csvText nowTs pP pA).activeMap k
      · rfl
      · exfalso
        rcases rowsFold2_active_origin _ _ _ _ ⟨[], buildMap2 pA, 0, 0⟩ _ hb with
          h2 | ⟨r, hr, hk⟩
        · simp [ahas] at h2
        · exact hfeed r hr hk
    have hexcl : k ∉ (nextProducts2Def csvText nowTs pP pA).map keyOf2 := by
      intro hmem
      obtain ⟨v, hv, hkv⟩ := List.mem_map.mp hmem
      simp only [nextProducts2Def] at hv
      have hv2 := (mem_sortByLe _ _ _).mp hv
      have hh := ahas_of_avalues_mem (rowsState2_active_wf csvText nowTs pP pA) hv2
      rw [hkv, hact] at hh
      simp at hh
    refine ⟨hexcl, ?_⟩
    have hcont : (nextKeys2Def csvText nowTs pP pA).contains k = false := by
      simp only [nextKeys2Def]
      simpa using hexcl
    have hadd : aget (finalArchiveMap2 csvText nowTs pP pA) k = some (removedTag oldP) := by
      simp only [finalArchiveMap2, removedLoop2, removedLoopGen]
      exact removedFold_adds _ _ _ _ _ _ hprev hcont harch
    simp only [SyncResult2.nextArchive]
    exact (mem_sortByLe _ _ _).mpr (aget_mem_avalues hadd)

/-- Witness for C2 at the concrete removal scenario of the spec: prior
active UK/B0ABC00000, header-only feed, in both revisions. -/
theorem C2_removed_transition_witness :
    ("UK|B0ABC00000" ∉
        ((⟨[], [⟨"UK", "B0ABC00000", "t", "", "", none⟩], 0, 1⟩ : SyncResult)).nextProducts.map
          keyOf ∧
      (⟨"UK", "B0ABC00000", "t", "", "", none⟩ : Item) ∈
        ((⟨[], [⟨"UK", "B0ABC00000", "t", "", "", none⟩], 0, 1⟩ : SyncResult)).nextArchive) ∧
    ("UK|B0ABC00000" ∉
        ((⟨[], [removedTag ⟨"UK", "B0ABC00000", "t", "", "", "", "", "", "", 0, 7, 3, none⟩],
            0, 1⟩ : SyncResult2)).nextProducts.map keyOf2 ∧
      removedTag (⟨"UK", "B0ABC00000", "t", "", "", "", "", "", "", 0, 7, 3, none⟩ : Item2) ∈
        ((⟨[], [removedTag ⟨"UK", "B0ABC00000", "t", "", "", "", "", "", "", 0, 7, 3, none⟩],
            0, 1⟩ : SyncResult2)).nextArchive) := by
  constructor
  · exact C2_removed_transition.1 "market,asin\n"
      [⟨"UK", "B0ABC00000", "t", "", "", none⟩] []
      ⟨[], [⟨"UK", "B0ABC00000", "t", "", "", none⟩], 0, 1⟩ "UK|B0ABC00000"
      ⟨"UK", "B0ABC00000", "t", "", "", none⟩ (by rfl) (by rfl) (by decide) (by rfl)
  · exact C2_removed_transition.2 "market,asin\n" 42
      [⟨"UK", "B0ABC00000", "t", "", "", "", "", "", "", 0, 7, 3, none⟩] []
      ⟨[], [removedTag ⟨"UK", "B0ABC00000", "t", "", "", "", "", "", "", 0, 7, 3, none⟩], 0, 1⟩
      "UK|B0ABC00000" ⟨"UK", "B0ABC00000", "t", "", "", "", "", "", "", 0, 7, 3, none⟩
      (by rfl) (by rfl) (by decide) (by rfl)

theorem classifyRow_eq_nonAmazon {headers r : List String}
    (h1 : ¬ (rowMarket headers r = "" ∨ rowAsin headers r = ""))
    (h2 : isNonAmazonByAsin (rowAsin headers r) = true) :
    classifyRow headers r = .nonAmazon := by
  simp [classifyRow, h1, h2]

theorem processRow_activeInsert_origin {headers : List String} {st : RunState}
    {r : List String} {k : String}
    (h : ahas (processRow headers st r).activeMap k = true) :
    ahas st.activeMap k = true ∨
      (rowKeyOf headers r = k ∧ classifyRow headers r = .active) := by
  cases hcl : classifyRow headers r
  · rw [processRow_skip hcl] at h
    exact Or.inl h
  · rw [processRow_nonAmazon hcl] at h
    split_ifs at h with hh <;> exact Or.inl h
  · rw [processRow_inactive hcl] at h
    split_ifs at h with hh <;> exact Or.inl h
  · rw [processRow_active hcl] at h
    split_ifs at h with hh <;>
      rcases (ahas_aset _ _ _ _).mp h with h2 | h2
    · exact Or.inr ⟨h2, rfl⟩
    · exact Or.inl h2
    · exact Or.inr ⟨h2, rfl⟩
    · exact Or.inl h2

theorem rowsFold_activeInsert_origin (headers : List String) (rows : List (List String)) :
    ∀ (st : RunState) (k : String),
      ahas ((rows.foldl (processRow headers) st)).activeMap k = true →
      ahas st.activeMap k = true ∨
        ∃ r ∈ rows, rowKeyOf headers r = k ∧ classifyRow headers r = .active := by
  induction rows with
  | nil => intro st k h; exact Or.inl (by simpa using h)
  | cons r rest ih =>
    intro st k h
    simp only [List.foldl] at h
    rcases ih _ _ h with h2 | ⟨r2, hr2, hk⟩
    · rcases processRow_activeInsert_origin h2 with h3 | h3
      · exact Or.inl h3
      · exact Or.inr ⟨r, by simp, h3⟩
    · exact Or.inr ⟨r2, by simp [hr2], hk⟩

/-- Invariant of the row loop: when every data row carrying the key k is
all-digits, the archive entry at k, whenever it was created during this
run, carries the non_amazon_numeric_asin tag. -/
theorem rowsFold_nonamazon (headers : List String) (rows : List (List String)) (k : String)
    (H : ∀ r ∈ rows, rowKeyOf headers r = k →
      isNonAmazonByAsin (rowAsin headers r) = true) :
    ∀ st : RunState,
      (∀ e, aget st.archiveMap k = some e →
        keyOf e = k ∧ e.hidden_reason = some "non_amazon_numeric_asin") →
      (∀ e, aget (rows.foldl (processRow headers) st).archiveMap k = some e →
        keyOf e = k ∧ e.hidden_reason = some "non_amazon_numeric_asin") := by
  induction rows with
  | nil => intro st hst; simpa using hst
  | cons r rest ih =>
    intro st hst
    simp only [List.foldl]
    apply ih
    · intro r2 hr2 hk
      exact H r2 (by simp [hr2]) hk
    · intro e he
      cases hcl : classifyRow headers r
      · rw [processRow_skip hcl] at he
        exact hst e he
      · rw [processRow_nonAmazon hcl] at he
        split_ifs at he with hh
        · exact hst e he
        · rw [aget_aset] at he
          split_ifs at he with hk
          · simp only [Option.some.injEq] at he
            subst he
            exact ⟨by rw [keyOf_rowItemTagged, hk], rfl⟩
          · exact hst e he
      · rw [processRow_inactive hcl] at he
        split_ifs at he with hh
        · exact hst e he
        · rw [aget_aset] at he
          split_ifs at he with hk
          · exfalso
            have hd := H r (by simp) hk
            rw [classify_inactive_not_digits hcl] at hd
            simp at hd
          · exact hst e he
      · rw [processRow_active hcl] at he
        split_ifs at he with hh <;> exact hst e he

/-- C3 counterexample, refuting the claim as stated: a fresh run over one
all-digits row archives the record tagged non_amazon_numeric_asin; no
record of the archive carries the tag non_amazon_numeric_id that the
claim names. -/
theorem C3_counterexample :
    runSync "market,asin\nUS,123456789012\n" [] [] =
      .ok ⟨[], [⟨"US", "123456789012", "", "", "", some "non_amazon_numeric_asin"⟩], 0, 0⟩ ∧
    (∀ e ∈ (⟨[], [⟨"US", "123456789012", "", "", "",
          some "non_amazon_numeric_asin"⟩], 0, 0⟩ : SyncResult).nextArchive,
      ¬ e.hidden_reason = some "non_amazon_numeric_id") ∧
    ¬ ("non_amazon_numeric_asin" = "non_amazon_numeric_id") := by
  exact ⟨rfl, by decide, by decide⟩

/-- C3 (amended): a feed row whose asin is all digits (and whose key is
carried only by all-digits rows) never reaches the active collection; its
key is always present in the next archive; and when the key is new to the
prior archive the stored record carries the tag non_amazon_numeric_asin
(the literal the code writes, not non_amazon_numeric_id). -/
theorem C3_non_primary_exclusion (csvText : String) (prevProducts prevArchive : List Item)
    (res : SyncResult) (r : List String)
    (hok : runSync csvText prevProducts prevArchive = .ok res)
    (hr : r ∈ csvDataRows csvText)
    (hm : ¬ rowMarket (csvHeaders csvText) r = "")
    (ha : ¬ rowAsin (csvHeaders csvText) r = "")
    (hd : isNonAmazonByAsin (rowAsin (csvHeaders csvText) r) = true)
    (hkey : ∀ r2 ∈ csvDataRows csvText,
      rowKeyOf (csvHeaders csvText) r2 = rowKeyOf (csvHeaders csvText) r →
      isNonAmazonByAsin (rowAsin (csvHeaders csvText) r2) = true) :
    rowKeyOf (csvHeaders csvText) r ∉ res.nextProducts.map keyOf ∧
    rowKeyOf (csvHeaders csvText) r ∈ res.nextArchive.map keyOf ∧
    (ahas (buildMap prevArchive) (rowKeyOf (csvHeaders csvText) r) = false →
      ∃ e ∈ res.nextArchive, keyOf e = rowKeyOf (csvHeaders csvText) r ∧
        e.hidden_reason = some "non_amazon_numeric_asin") := by
  obtain ⟨hne, hres⟩ := runSync_ok.mp hok
  subst hres
  set headers := csvHeaders csvText with hH
  set k := rowKeyOf headers r with hK
  have hcl : classifyRow headers r = .nonAmazon :=
    classifyRow_eq_nonAmazon (not_or.mpr ⟨hm, ha⟩) hd
  -- the key is in the archive Map once the row has been processed
  obtain ⟨l1, l2, hsplit⟩ := List.append_of_mem hr
  have hafter : ahas (rowsState csvText prevArchive).archiveMap k = true := by
    simp only [rowsState, ← hH, hsplit, List.foldl_append, List.foldl_cons]
    apply rowsFold_archive_mono
    rw [processRow_nonAmazon hcl]
    split_ifs with hh
    · exact hh
    · exact (ahas_aset _ _ _ _).mpr (Or.inl rfl)
  have hfinal : ahas (finalArchiveMap csvText prevProducts prevArchive) k = true := by
    simp only [finalArchiveMap, removedLoop, removedLoopGen]
    exact removedFold_mono _ _ _ _ _ hafter
  refine ⟨?_, ?_, ?_⟩
  · -- never in the active collection
    intro hmem
    obtain ⟨v, hv, hkv⟩ := List.mem_map.mp hmem
    simp only [nextProductsDef] at hv
    have hv2 := (mem_sortByLe _ _ _).mp hv
    have hh := ahas_of_avalues_mem (rowsState_active_wf csvText prevArchive) hv2
    rw [hkv] at hh
    rcases rowsFold_activeInsert_origin _ _ ⟨[], buildMap prevArchive, 0⟩ _ hh with
      h2 | ⟨r2, hr2, hk2, hcl2⟩
    · simp [ahas] at h2
    · have hd2 := hkey r2 hr2 hk2
      rw [classify_active_not_digits hcl2] at hd2
      simp at hd2
  · -- the key is in the next archive
    obtain ⟨v, hv⟩ := (ahas_iff_aget _ _).mp hfinal
    have hkv : keyOf v = k :=
      wfMap_aget (finalArchive_wf csvText prevProducts prevArchive) hv
    exact List.mem_map.mpr ⟨v, mem_nextArchive_of_aget hv, hkv⟩
  · -- tagged when the key is new to the prior archive
    intro hfresh
    have hinv := rowsFold_nonamazon headers (csvDataRows csvText) k hkey
      ⟨[], buildMap prevArchive, 0⟩
      (by
        intro e he
        exfalso
        have := (ahas_iff_aget (buildMap prevArchive) k).mpr ⟨e, he⟩
        rw [hfresh] at this
        simp at this)
    obtain ⟨e, he⟩ := (ahas_iff_aget _ _).mp hafter
    have hprop := hinv e (by simpa [rowsState, hH] using he)
    have hpres : aget (finalArchiveMap csvText prevProducts prevArchive) k = some e := by
      simp only [finalArchiveMap, removedLoop, removedLoopGen]
      exact removedFold_preserve _ _ _ _ _ _ (by simpa [rowsState, hH] using he)
    exact ⟨e, mem_nextArchive_of_aget hpres, hprop⟩

/-- Witness for C3 at the concrete all-digits row of the spec. -/
theorem C3_non_primary_exclusion_witness :
    rowKeyOf (csvHeaders "market,asin\nUS,123456789012\n") ["US", "123456789012"] ∉
      (⟨[], [⟨"US", "123456789012", "", "", "", some "non_amazon_numeric_asin"⟩], 0,
        0⟩ : SyncResult).nextProducts.map keyOf ∧
    rowKeyOf (csvHeaders "market,asin\nUS,123456789012\n") ["US", "123456789012"] ∈
      (⟨[], [⟨"US", "123456789012", "", "", "", some "non_amazon_numeric_asin"⟩], 0,
        0⟩ : SyncResult).nextArchive.map keyOf ∧
    (ahas (buildMap ([] : List Item))
        (rowKeyOf (csvHeaders "market,asin\nUS,123456789012\n") ["US", "123456789012"]) =
          false →
      ∃ e ∈ (⟨[], [⟨"US", "123456789012", "", "", "",
            some "non_amazon_numeric_asin"⟩], 0, 0⟩ : SyncResult).nextArchive,
        keyOf e = rowKeyOf (csvHeaders "market,asin\nUS,123456789012\n")
            ["US", "123456789012"] ∧
        e.hidden_reason = some "non_amazon_numeric_asin") :=
  C3_non_primary_exclusion "market,asin\nUS,123456789012\n" [] []
    ⟨[], [⟨"US", "123456789012", "", "", "", some "non_amazon_numeric_asin"⟩], 0, 0⟩
    ["US", "123456789012"] (by rfl) (by decide) (by decide) (by decide) (by decide)
    (by decide)

/-- C4 counterexample, refuting the claim as stated on the code of
scripts/sync_products.mjs: the prior archive holds a record under
US|B0AAAA0001 and the feed carries an Inactive row for the same key with
different content, yet the next archive still holds the prior record
unchanged, which differs from the record the row builds. -/
theorem C4_counterexample :
    runSync "market,asin,status\nUS,B0AAAA0001,off\n" []
        [⟨"US", "B0AAAA0001", "prev", "", "", some "non_amazon_numeric_asin"⟩] =
      .ok ⟨[], [⟨"US", "B0AAAA0001", "prev", "", "", some "non_amazon_numeric_asin"⟩], 0, 0⟩ ∧
    ¬ (⟨"US", "B0AAAA0001", "prev", "", "", some "non_amazon_numeric_asin"⟩ : Item) =
        rowItemTagged (csvHeaders "market,asin,status\nUS,B0AAAA0001,off\n")
          ["US", "B0AAAA0001", "off"] (some "inactive_status") := by
  exact ⟨rfl, by decide⟩

/-- C4 (amended): in scripts/sync_products.mjs the archive upsert is
insert-only: an entry already present in the working archive Map is left
unchanged by any later row, and every key of the prior archive still maps
to its prior record after the whole run. In the V2 revision of part_002
the upsert overwrites: a NonAmazon or Inactive row always stores the
record built from the current row (whose _ts comes from the prior active
record when present, not from the archive entry). -/
theorem C4_archive_upsert :
    (∀ (headers : List String) (st : RunState) (r : List String) (k : String) (v : Item),
      aget st.archiveMap k = some v →
      aget (processRow headers st r).archiveMap k = some v) ∧
    (∀ (csvText : String) (prevProducts prevArchive : List Item) (k : String),
      ahas (buildMap prevArchive) k = true →
      aget (finalArchiveMap csvText prevProducts prevArchive) k =
        aget (buildMap prevArchive) k) ∧
    (∀ (headers : List String) (pm : List (String × Item2)) (nowTs : Nat)
        (st : RunState2) (r : List String),
      ¬ (rowMarket headers r = "" ∨ rowAsin headers r = "") →
      isNonAmazonByAsin (rowAsin headers r) = true →
      aget (processRow2 headers pm nowTs st r).archiveMap (rowKeyOf headers r) =
        some { rowBaseItem2 headers r pm nowTs st.rowIdx with
               hidden_reason := some "non_amazon_numeric_asin" }) ∧
    (∀ (headers : List String) (pm : List (String × Item2)) (nowTs : Nat)
        (st : RunState2) (r : List String),
      ¬ (rowMarket headers r = "" ∨ rowAsin headers r = "") →
      isNonAmazonByAsin (rowAsin headers r) = false →
      isActiveStatus (rowStatus headers r) = false →
      aget (processRow2 headers pm nowTs st r).archiveMap (rowKeyOf headers r) =
        some { rowBaseItem2 headers r pm nowTs st.rowIdx with
               hidden_reason := some "inactive_status" }) := by
  refine ⟨?_, ?_, ?_, ?_⟩
  · intro headers st r k v h
    exact processRow_archive_preserve h
  · intro csvText pP pA k h
    obtain ⟨v, hv⟩ := (ahas_iff_aget _ _).mp h
    have h1 : aget (rowsState csvText pA).archiveMap k = some v := by
      simp only [rowsState]
      exact rowsFold_archive_preserve _ _ ⟨[], buildMap pA, 0⟩ _ _ hv
    have h2 : aget (finalArchiveMap csvText pP pA) k = some v := by
      simp only [finalArchiveMap, removedLoop, removedLoopGen]
      exact removedFold_preserve _ _ _ _ _ _ h1
    rw [h2, hv]
  · intro headers pm nowTs st r h1 h2
    simp only [processRow2]
    rw [if_neg h1, if_pos h2]
    simp only []
    rw [aget_aset]
    simp [keyOf2_rowBaseItem2]
  · intro headers pm nowTs st r h1 h2 h3
    simp only [processRow2]
    rw [if_neg h1, if_neg (by simp [h2]), if_pos (by simp [h3])]
    simp only []
    rw [aget_aset]
    simp [keyOf2_rowBaseItem2]

/-- Witness for C4 at concrete inputs for each conjunct. -/
theorem C4_archive_upsert_witness :
    aget (processRow ["market", "asin"] ⟨[],
        [("US|B0AAAA0001", ⟨"US", "B0AAAA0001", "prev", "", "", none⟩)], 0⟩
        ["US", "B0AAAA0001"]).archiveMap "US|B0AAAA0001" =
      some ⟨"US", "B0AAAA0001", "prev", "", "", none⟩ ∧
    aget (finalArchiveMap "market,asin,status\nUS,B0AAAA0001,off\n" []
        [⟨"US", "B0AAAA0001", "prev", "", "", some "non_amazon_numeric_asin"⟩])
        "US|B0AAAA0001" =
      aget (buildMap [⟨"US", "B0AAAA0001", "prev", "", "",
        some "non_amazon_numeric_asin"⟩]) "US|B0AAAA0001" ∧
    aget (processRow2 ["market", "asin"] [] 42 ⟨[],
        [("US|123456", ⟨"US", "123456", "old", "", "", "", "", "", "", 0, 7, 3,
          some "inactive_status"⟩)], 0, 0⟩
        ["US", "123456"]).archiveMap
        (rowKeyOf ["market", "asin"] ["US", "123456"]) =
      some { rowBaseItem2 ["market", "asin"] ["US", "123456"] [] 42 0 with
             hidden_reason := some "non_amazon_numeric_asin" } ∧
    aget (processRow2 ["market", "asin", "status"] [] 42 ⟨[],
        [("US|B0AAAA0001", ⟨"US", "B0AAAA0001", "old", "", "", "", "", "", "", 0, 7, 3,
          some "non_amazon_numeric_asin"⟩)], 0, 0⟩
        ["US", "B0AAAA0001", "off"]).archiveMap
        (rowKeyOf ["market", "asin", "status"] ["US", "B0AAAA0001", "off"]) =
      some { rowBaseItem2 ["market", "asin", "status"] ["US", "B0AAAA0001", "off"] [] 42 0 with
             hidden_reason := some "inactive_status" } := by
  refine ⟨?_, ?_, ?_, ?_⟩
  · exact C4_archive_upsert.1 ["market", "asin"] _ ["US", "B0AAAA0001"] "US|B0AAAA0001"
      ⟨"US", "B0AAAA0001", "prev", "", "", none⟩ (by rfl)
  · exact C4_archive_upsert.2.1 "market,asin,status\nUS,B0AAAA0001,off\n" []
      [⟨"US", "B0AAAA0001", "prev", "", "", some "non_amazon_numeric_asin"⟩]
      "US|B0AAAA0001" (by decide)
  · exact C4_archive_upsert.2.2.1 ["market", "asin"] [] 42 _ ["US", "123456"]
      (by decide) (by decide)
  · exact C4_archive_upsert.2.2.2 ["market", "asin", "status"] [] 42 _
      ["US", "B0AAAA0001", "off"] (by decide) (by decide) (by decide)

/-- The dedup priority as the spec states it, as a strict preference for
the incoming record: a record whose link passes the http(s) check beats
one whose link does not; on a tie a record with a nonempty image_url beats
one without; on a further tie the strictly longer title wins. -/
def dedupPrefersIncoming (existing incoming : Item) : Prop :=
  (isValidHttpUrl existing.link = false ∧ isValidHttpUrl incoming.link = true) ∨
  (isValidHttpUrl existing.link = isValidHttpUrl incoming.link ∧
    (((norm existing.image_url != "") = false ∧ (norm incoming.image_url != "") = true) ∨
     ((norm existing.image_url != "") = (norm incoming.image_url != "") ∧
      (norm existing.title).length < (norm incoming.title).length)))

instance (existing incoming : Item) : Decidable (dedupPrefersIncoming existing incoming) := by
  unfold dedupPrefersIncoming
  infer_instance

/-- C5: the dedup comparator. pickBetter keeps the incoming record exactly
when it is strictly preferred under the priority link > image > longer
title, and keeps the existing (earlier-encountered) record on every full
tie; and the row loop applies it with the previously kept record as the
existing argument whenever an active row hits an already-assigned key. -/
theorem C5_dedup_comparator :
    (∀ existing incoming : Item,
      pickBetter (some existing) incoming =
        if dedupPrefersIncoming existing incoming then incoming else existing) ∧
    (∀ (headers : List String) (st : RunState) (r : List String),
      classifyRow headers r = .active →
      ahas st.activeMap (rowKeyOf headers r) = true →
      (processRow headers st r).activeMap =
        aset st.activeMap (rowKeyOf headers r)
          (pickBetter (aget st.activeMap (rowKeyOf headers r))
            (rowItemTagged headers r none))) := by
  constructor
  · intro ex inc
    simp only [pickBetter, dedupPrefersIncoming]
    rcases Bool.eq_false_or_eq_true (isValidHttpUrl ex.link) with hA | hA <;>
      rcases Bool.eq_false_or_eq_true (isValidHttpUrl inc.link) with hB | hB <;>
        rcases Bool.eq_false_or_eq_true (norm ex.image_url != "") with hC | hC <;>
          rcases Bool.eq_false_or_eq_true (norm inc.image_url != "") with hD | hD <;>
            by_cases hT : (norm ex.title).length < (norm inc.title).length <;>
              simp [hA, hB, hC, hD, hT, Nat.lt_irrefl]
  · intro headers st r hcl hh
    rw [processRow_active hcl]
    rw [if_pos hh]

/-- Witness for C5 at a concrete duplicate: the incoming record has a
valid link while the kept one does not, so the dedup step replaces it. -/
theorem C5_dedup_comparator_witness :
    (pickBetter (some ⟨"US", "B0AAAA0001", "t", "", "", none⟩)
        ⟨"US", "B0AAAA0001", "s", "https://x.example", "", none⟩ =
      if dedupPrefersIncoming ⟨"US", "B0AAAA0001", "t", "", "", none⟩
          ⟨"US", "B0AAAA0001", "s", "https://x.example", "", none⟩ then
        ⟨"US", "B0AAAA0001", "s", "https://x.example", "", none⟩
      else ⟨"US", "B0AAAA0001", "t", "", "", none⟩) ∧
    (processRow ["market", "asin"]
        ⟨[("US|B0AAAA0001", ⟨"US", "B0AAAA0001", "t", "", "", none⟩)], [], 0⟩
        ["US", "B0AAAA0001"]).activeMap =
      aset [("US|B0AAAA0001", ⟨"US", "B0AAAA0001", "t", "", "", none⟩)]
        (rowKeyOf ["market", "asin"] ["US", "B0AAAA0001"])
        (pickBetter
          (aget [("US|B0AAAA0001", ⟨"US", "B0AAAA0001", "t", "", "", none⟩)]
            (rowKeyOf ["market", "asin"] ["US", "B0AAAA0001"]))
          (rowItemTagged ["market", "asin"] ["US", "B0AAAA0001"] none)) := by
  constructor
  · exact C5_dedup_comparator.1 ⟨"US", "B0AAAA0001", "t", "", "", none⟩
      ⟨"US", "B0AAAA0001", "s", "https://x.example", "", none⟩
  · exact C5_dedup_comparator.2 ["market", "asin"]
      ⟨[("US|B0AAAA0001", ⟨"US", "B0AAAA0001", "t", "", "", none⟩)], [], 0⟩
      ["US", "B0AAAA0001"] (by decide) (by decide)

/-- Number of usable (non-Skip) rows of a feed: data rows that survive the
market/asin presence check. -/
def usableRowCount (csvText : String) : Nat :=
  ((csvDataRows csvText).filter
    (fun r => classifyRow (csvHeaders csvText) r != RowClass.skip)).length

/-- C6 counterexample, refuting the claim as stated: a non-empty feed
whose single data row is unusable (missing market) yields zero usable
rows, yet the run does not abort; it returns ok with an empty next active
collection and empty archive, which are then persisted. -/
theorem C6_counterexample :
    ¬ ("market,asin\n,x\n" = "") ∧
    usableRowCount "market,asin\n,x\n" = 0 ∧
    runSync "market,asin\n,x\n" [] [] = .ok ⟨[], [], 0, 0⟩ := by
  exact ⟨by decide, by rfl, by rfl⟩

/-- C6 (amended): the content phase is fatal exactly when parseCSV yields
no rows at all (empty feed text); any feed whose parse yields at least one
row, even with zero usable rows, completes with an ok result that is then
persisted. The throw happens before anything is written. -/
theorem C6_zero_usable_rows (csvText : String) (prevProducts prevArchive : List Item) :
    (runSync csvText prevProducts prevArchive = .error "CSV is empty" ↔
      parseCSV csvText = []) ∧
    (¬ parseCSV csvText = [] →
      runSync csvText prevProducts prevArchive =
        .ok ⟨nextProductsDef csvText prevArchive,
             nextArchiveDef csvText prevProducts prevArchive,
             (rowsState csvText prevArchive).dupActive,
             removedCountDef csvText prevProducts prevArchive⟩) := by
  simp only [runSync]
  split_ifs with h <;> simp [h]

/-- Witness for C6: the empty feed aborts; a header-only feed returns ok. -/
theorem C6_zero_usable_rows_witness :
    runSync "" ([] : List Item) [] = .error "CSV is empty" ∧
    runSync "market,asin\n" ([] : List Item) [] =
      .ok ⟨nextProductsDef "market,asin\n" [],
           nextArchiveDef "market,asin\n" [] [],
           (rowsState "market,asin\n" []).dupActive,
           removedCountDef "market,asin\n" [] []⟩ := by
  constructor
  · exact (C6_zero_usable_rows "" [] []).1.mpr (by rfl)
  · exact (C6_zero_usable_rows "market,asin\n" [] []).2 (by decide)

theorem runOps_append (fs : PubFS) (ops1 ops2 : List FsOp) :
    runOps fs (ops1 ++ ops2) = runOps (runOps fs ops1) ops2 := by
  simp [runOps, List.foldl_append]

theorem runOps_writePub (ps : List String) :
    ∀ (a : List String) (st : Option (List String)),
      runOps ⟨some a, st⟩ (ps.map .writePub) = ⟨some (a ++ ps), st⟩ := by
  induction ps with
  | nil => intro a st; simp [runOps]
  | cons p rest ih =>
    intro a st
    simp only [List.map_cons, runOps, List.foldl_cons, applyOp]
    have := ih (a ++ [p]) st
    simp only [runOps] at this
    simpa using this

theorem runOps_writeStag (ps : List String) :
    ∀ (pub : Option (List String)) (a : List String),
      runOps ⟨pub, some a⟩ (ps.map .writeStag) = ⟨pub, some (a ++ ps)⟩ := by
  induction ps with
  | nil => intro pub a; simp [runOps]
  | cons p rest ih =>
    intro pub a
    simp only [List.map_cons, runOps, List.foldl_cons, applyOp]
    have := ih pub (a ++ [p])
    simp only [runOps] at this
    simpa using this

/-- Operations that only touch the staging tree. -/
def stagingOnly : FsOp → Bool
  | .rmStaging => true
  | .mkStaging => true
  | .writeStag _ => true
  | _ => false

theorem runOps_stagingOnly_published :
    ∀ (ops : List FsOp) (fs : PubFS), (∀ op ∈ ops, stagingOnly op = true) →
      (runOps fs ops).published = fs.published := by
  intro ops
  induction ops with
  | nil => intro fs h; rfl
  | cons op rest ih =>
    intro fs h
    simp only [runOps, List.foldl_cons]
    have h1 : (applyOp fs op).published = fs.published := by
      have := h op (by simp)
      cases op <;> simp_all [stagingOnly, applyOp]
    have h2 := ih (applyOp fs op) (fun o ho => h o (by simp [ho]))
    simp only [runOps] at h2
    rw [h2, h1]

/-- C7 counterexample, refuting the claim as stated on generatePPages of
scripts/sync_products.mjs: its operation trace stages nothing, and after
its very first operation the previously published tree is already gone,
so an interruption leaves neither the previous nor the new complete
generation. -/
theorem C7_counterexample :
    (∀ op ∈ genPPagesTrace [⟨"US", "B0A", "", "", "", none⟩] [], stagingOnly op = false) ∧
    runOps ⟨some ["old"], none⟩
        ((genPPagesTrace [⟨"US", "B0A", "", "", "", none⟩] []).take 1) = ⟨none, none⟩ ∧
    ¬ ((none : Option (List String)) = some ["old"]) := by
  exact ⟨by decide, by rfl, by decide⟩

/-- C7 (amended): generatePPages of scripts/sync_products.mjs deletes the
published tree and writes pages directly into it, so an interruption after
the initial delete leaves no previous tree and, after j pages, a partial
tree of exactly the first j new pages. The part_002 variant writes pages
to a staging tree first, so any interruption up to the start of the swap
leaves the published tree untouched; but its swap is delete-then-rename,
so the interruption between the delete and the rename leaves no published
tree at all; only the completed swap publishes the new generation. -/
theorem C7_atomic_publish :
    (∀ (active archive : List Item) (fs : PubFS),
      runOps fs ((genPPagesTrace active archive).take 1) = ⟨none, fs.staging⟩) ∧
    (∀ (active archive : List Item) (fs : PubFS) (j : Nat),
      runOps fs ((genPPagesTrace active archive).take (j + 2)) =
        ⟨some ((pPagePaths active archive).take j), fs.staging⟩) ∧
    (∀ (active archive : List Item2) (fs : PubFS) (j : Nat),
      j ≤ (pPagePaths2 active archive).length + 2 →
      (runOps fs ((genPPagesV2Trace active archive).take j)).published = fs.published) ∧
    (∀ (active archive : List Item2) (fs : PubFS),
      runOps fs ((genPPagesV2Trace active archive).dropLast) =
        ⟨none, some (pPagePaths2 active archive)⟩) ∧
    (∀ (active archive : List Item2) (fs : PubFS),
      runOps fs (genPPagesV2Trace active archive) =
        ⟨some (pPagePaths2 active archive), none⟩) := by
  have hswap : ∀ (active archive : List Item2),
      genPPagesV2Trace active archive =
        (FsOp.rmStaging :: FsOp.mkStaging ::
          ((pPagePaths2 active archive).map FsOp.writeStag ++ [FsOp.rmPublished])) ++
          [FsOp.renameStagingToPublished] := by
    intro active archive
    simp [genPPagesV2Trace]
  have hpre : ∀ (active archive : List Item2) (fs : PubFS),
      runOps fs (FsOp.rmStaging :: FsOp.mkStaging ::
          ((pPagePaths2 active archive).map FsOp.writeStag ++ [FsOp.rmPublished])) =
        ⟨none, some (pPagePaths2 active archive)⟩ := by
    intro active archive fs
    simp only [runOps, List.foldl_cons, List.foldl_append]
    have h1 := runOps_writeStag (pPagePaths2 active archive) fs.published []
    simp only [runOps] at h1
    rw [show applyOp (applyOp fs .rmStaging) .mkStaging = ⟨fs.published, some []⟩ from rfl, h1]
    rfl
  refine ⟨?_, ?_, ?_, ?_, ?_⟩
  · intro active archive fs
    rfl
  · intro active archive fs j
    simp only [genPPagesTrace, List.cons_append, List.nil_append]
    rw [show (FsOp.rmPublished :: FsOp.mkPublished ::
        (pPagePaths active archive).map FsOp.writePub).take (j + 2) =
      FsOp.rmPublished :: FsOp.mkPublished ::
        ((pPagePaths active archive).take j).map FsOp.writePub from by
      simp [List.take_succ_cons, List.map_take]]
    simp only [runOps, List.foldl_cons]
    have h1 := runOps_writePub ((pPagePaths active archive).take j) [] fs.staging
    simp only [runOps] at h1
    rw [show applyOp (applyOp fs .rmPublished) .mkPublished = ⟨some [], fs.staging⟩ from rfl, h1]
    simp
  · intro active archive fs j hj
    have hsub : (genPPagesV2Trace active archive).take j ⊆
        FsOp.rmStaging :: FsOp.mkStaging :: (pPagePaths2 active archive).map FsOp.writeStag := by
      intro op hop
      have h1 : (genPPagesV2Trace active archive).take j =
          (FsOp.rmStaging :: FsOp.mkStaging ::
            (pPagePaths2 active archive).map FsOp.writeStag).take j := by
        simp only [genPPagesV2Trace, List.cons_append, List.nil_append]
        rw [show FsOp.rmStaging :: FsOp.mkStaging ::
            ((pPagePaths2 active archive).map FsOp.writeStag ++
              [FsOp.rmPublished, FsOp.renameStagingToPublished]) =
          (FsOp.rmStaging :: FsOp.mkStaging ::
            (pPagePaths2 active archive).map FsOp.writeStag) ++
            [FsOp.rmPublished, FsOp.renameStagingToPublished] from by simp]
        have hle : j ≤ (FsOp.rmStaging :: FsOp.mkStaging ::
            (pPagePaths2 active archive).map FsOp.writeStag).length := by
          simp only [List.length_cons, List.length_map]
          omega
        rw [List.take_append_of_le_length hle]
      rw [h1] at hop
      exact List.take_subset _ _ hop
    apply runOps_stagingOnly_published
    intro op hop
    have := hsub hop
    rcases List.mem_cons.mp this with h | h
    · simp [h, stagingOnly]
    · rcases List.mem_cons.mp h with h2 | h2
      · simp [h2, stagingOnly]
      · obtain ⟨p, hp, hop2⟩ := List.mem_map.mp h2
        simp [← hop2, stagingOnly]
  · intro active archive fs
    rw [hswap, List.dropLast_concat]
    exact hpre active archive fs
  · intro active archive fs
    rw [hswap, runOps_append, hpre active archive fs]
    rfl

/-- Witness for C7 at a concrete generation of one page in each variant. -/
theorem C7_atomic_publish_witness :
    runOps ⟨some ["old"], none⟩
        ((genPPagesTrace [⟨"US", "B0A", "", "", "", none⟩] []).take (1 + 2)) =
      ⟨some (pPagePaths [⟨"US", "B0A", "", "", "", none⟩] []), none⟩ ∧
    ((1 : Nat) ≤ (pPagePaths2 [] [⟨"US", "B0A", "", "", "", "", "", "", "", 0, 0, 0,
        none⟩]).length + 2 ∧
      (runOps ⟨some ["old"], none⟩
          ((genPPagesV2Trace [] [⟨"US", "B0A", "", "", "", "", "", "", "", 0, 0, 0,
            none⟩]).take 1)).published = some ["old"]) := by
  constructor
  · have h := C7_atomic_publish.2.1 [⟨"US", "B0A", "", "", "", none⟩] []
      ⟨some ["old"], none⟩ 1
    simpa using h
  · refine ⟨by decide, ?_⟩
    have h := C7_atomic_publish.2.2.1 []
      [⟨"US", "B0A", "", "", "", "", "", "", "", 0, 0, 0, none⟩] ⟨some ["old"], none⟩ 1
      (by decide)
    simpa using h

/-- Number of records in a processed prefix that share a key. -/
def occCount (done : List PageItem) (key : String) : Nat :=
  (done.filter (fun p => pageKeyOf p == key)).length

/-- The key-assignment scheme as the spec states it, written directly over
the processed prefix: the first occurrence of a key receives the raw
(uppercased) asin, the Nth subsequent occurrence receives asin_N. -/
def specKeysGo : List PageItem → List PageItem → List String
  | _, [] => []
  | done, p :: ps =>
    (if occCount done (pageKeyOf p) = 0 then upper p.asin
     else upper p.asin ++ "_" ++ toString (occCount done (pageKeyOf p)))
      :: specKeysGo (done ++ [p]) ps

/-- Keys the spec scheme assigns to a whole sequence. -/
def specAsinKeys (l : List PageItem) : List String := specKeysGo [] l

theorem annotateGo_keys (ps : List PageItem) :
    ∀ (done : List PageItem) (counter : List (String × Nat)),
      (∀ key, (aget counter key).getD 0 = occCount done key) →
      (annotateGo ps counter).map (fun p => p.asinKeyAnn) =
        (specKeysGo done ps).map some := by
  induction ps with
  | nil => intro done counter h; rfl
  | cons p rest ih =>
    intro done counter h
    simp only [annotateGo, specKeysGo, List.map_cons]
    have hkey := h (pageKeyOf p)
    simp only [pageKeyOf] at hkey
    rw [hkey]
    congr 1
    · apply ih
      intro key2
      rw [aget_aset]
      by_cases hk : upper p.market ++ "|" ++ upper p.asin = key2
      · rw [if_pos hk, ← hk]
        simp [occCount, List.filter_append, pageKeyOf]
      · rw [if_neg hk, h key2]
        simp [occCount, List.filter_append, pageKeyOf, hk]

/-- C8 counterexample, refuting the claim as stated: a feed of two rows
with the same (market, asin) pair is collapsed by the reconciler dedup to
one active record, so the generated output holds the single AsinKey
B000000001; no B000000001_1 is ever assigned. -/
theorem C8_counterexample :
    runSync "market,asin\nUS,B000000001\nUS,B000000001\n" [] [] =
      .ok ⟨[⟨"US", "B000000001", "", "", "", none⟩], [], 1, 0⟩ ∧
    (pagesMain [⟨"US", "B000000001", "", "", "", none⟩] []).map (fun p => p.asinKeyAnn) =
      [some "B000000001"] ∧
    some "B000000001_1" ∉
      (pagesMain [⟨"US", "B000000001", "", "", "", none⟩] []).map (fun p => p.asinKeyAnn) := by
  exact ⟨rfl, rfl, by decide⟩

/-- C8 (amended): over the key assignor input sequence (the sorted
active-union-archive list, in which a key can occur more than once), the
first occurrence of each (market, asin) key receives the raw uppercased
asin and the Nth subsequent occurrence receives asin_N, deterministically
and in sequence order; duplicate feed rows sharing a key are collapsed by
dedup before key assignment ever runs. -/
theorem C8_key_stability (l : List PageItem) :
    (annotateAsinKeys l).map (fun p => p.asinKeyAnn) = (specAsinKeys l).map some :=
  annotateGo_keys l [] [] (fun _ => rfl)

/-- The record with its __asinKey mark erased. -/
def stripKeyAnn (p : PageItem) : PageItem := { p with asinKeyAnn := none }

/-- C9 counterexample, refuting the claim as stated: annotateAsinKeys
mutates its input records. Under the state-passing embedding the output
record differs from the input record: its __asinKey property has been set,
so the inputs are not left unmodified, and no separate parallel key
sequence is returned. -/
theorem C9_counterexample :
    annotateAsinKeys [⟨"US", "B000000001", "", "", none⟩] =
      [⟨"US", "B000000001", "", "", some "B000000001"⟩] ∧
    ¬ (annotateAsinKeys [⟨"US", "B000000001", "", "", none⟩] =
        [⟨"US", "B000000001", "", "", none⟩]) := by
  exact ⟨rfl, by decide⟩

theorem annotateGo_strip (ps : List PageItem) :
    ∀ counter : List (String × Nat),
      (annotateGo ps counter).map stripKeyAnn = ps.map stripKeyAnn ∧
      (annotateGo ps counter).length = ps.length := by
  induction ps with
  | nil => intro counter; exact ⟨rfl, rfl⟩
  | cons p rest ih =>
    intro counter
    simp only [annotateGo, List.map_cons, List.length_cons]
    obtain ⟨h1, h2⟩ := ih (aset counter (upper p.market ++ "|" ++ upper p.asin)
      (((aget counter (upper p.market ++ "|" ++ upper p.asin)).getD 0) + 1))
    constructor
    · rw [h1]
      rfl
    · rw [h2]

/-- C9 (amended): annotateAsinKeys annotates in place rather than acting
as a pure parallel-sequence function: it yields the input sequence itself
(same length, every field other than the __asinKey mark unchanged) with
the __asinKey mark set on each record. -/
theorem C9_assignor_mutation (l : List PageItem) :
    (annotateAsinKeys l).map stripKeyAnn = l.map stripKeyAnn ∧
    (annotateAsinKeys l).length = l.length :=
  annotateGo_strip l []

/-- C10: implicit degraded-load behavior. When the prior archive document
is missing, unreadable, invalid JSON or valid JSON that is not an array,
the prior archive is silently treated as empty: the run proceeds exactly
as with an empty prior archive, does not abort on that account (any feed
whose parse yields rows still completes ok), and every key of the next
archive then derives from the feed rows of this run or from the prior products
document alone — every previously archived key not re-derivable from
those is lost. -/
theorem C10_corrupt_prior_state (csvText : String) (productsRead archiveRead : ReadOutcome)
    (hcorrupt : isArrayRead archiveRead = false) :
    loadPrevList archiveRead = [] ∧
    runSyncFull csvText productsRead archiveRead =
      runSync csvText (loadPrevList productsRead) [] ∧
    (¬ parseCSV csvText = [] →
      ∃ res, runSyncFull csvText productsRead archiveRead = .ok res) ∧
    (∀ (res : SyncResult) (k : String),
      runSyncFull csvText productsRead archiveRead = .ok res →
      k ∈ res.nextArchive.map keyOf →
      (∃ r ∈ csvDataRows csvText, rowKeyOf (csvHeaders csvText) r = k) ∨
      (∃ p ∈ loadPrevList productsRead, keyOf p = k)) := by
  have hload : loadPrevList archiveRead = [] := by
    cases archiveRead with
    | missing => rfl
    | readError => rfl
    | parseError => rfl
    | parsed j =>
      cases j with
      | arr xs => simp [isArrayRead] at hcorrupt
      | nonArray => rfl
  refine ⟨hload, ?_, ?_, ?_⟩
  · simp only [runSyncFull, hload]
  · intro hne
    simp only [runSyncFull, hload, runSync]
    rw [if_neg hne]
    exact ⟨_, rfl⟩
  · intro res k hok hmem
    simp only [runSyncFull, hload] at hok
    obtain ⟨hne, hres⟩ := runSync_ok.mp hok
    subst hres
    obtain ⟨v, hv, hkv⟩ := List.mem_map.mp hmem
    simp only [nextArchiveDef] at hv
    have hv2 := (mem_sortByLe _ _ _).mp hv
    have hhas : ahas (finalArchiveMap csvText (loadPrevList productsRead) []) k = true := by
      have := ahas_of_avalues_mem (finalArchive_wf csvText (loadPrevList productsRead) []) hv2
      rwa [hkv] at this
    simp only [finalArchiveMap, removedLoop, removedLoopGen] at hhas
    rcases removedFold_origin _ _ _ _ _ hhas with h1 | ⟨e, he, hk⟩
    · rcases rowsFold_archive_origin _ _ ⟨[], buildMap [], 0⟩ _ h1 with h2 | h2
      · simp [buildMap, ahas] at h2
      · exact Or.inl h2
    · right
      have h3 : ahas (buildMap (loadPrevList productsRead)) k = true := by
        rw [← hk]
        exact ahas_of_mem he
      exact buildMap_origin h3

/-- Witness for C10 at a concrete corrupt archive read: the archive
parses as non-JSON while products parses as an array of one record. -/
theorem C10_corrupt_prior_state_witness :
    loadPrevList ReadOutcome.parseError = [] ∧
    runSyncFull "market,asin\n"
        (ReadOutcome.parsed (JsonVal.arr [⟨"US", "B0AAAA0001", "t", "", "", none⟩]))
        ReadOutcome.parseError =
      runSync "market,asin\n"
        (loadPrevList (ReadOutcome.parsed
          (JsonVal.arr [⟨"US", "B0AAAA0001", "t", "", "", none⟩]))) [] ∧
    (∃ res, runSyncFull "market,asin\n"
        (ReadOutcome.parsed (JsonVal.arr [⟨"US", "B0AAAA0001", "t", "", "", none⟩]))
        ReadOutcome.parseError = .ok res) := by
  obtain ⟨h1, h2, h3, h4⟩ := C10_corrupt_prior_state "market,asin\n"
    (ReadOutcome.parsed (JsonVal.arr [⟨"US", "B0AAAA0001", "t", "", "", none⟩]))
    ReadOutcome.parseError (by decide)
  exact ⟨h1, h2, h3 (by decide)⟩

end ProductList
